import Mathlib

/-!
# Verification of the gean consensus core against its specification

This file embeds the consensus core of the gean Lean-Ethereum client
(state transition, justification / finalization engine, LMD-GHOST fork
choice, block production and the canonical codec) as executable Lean
definitions, translated from the Go sources, and proves or refutes the
frozen specification claims about them.

Modelling conventions:
* 32-byte roots are modelled as natural numbers; byte-lexicographic order
  on `[32]byte` coincides with numeric order of the big-endian value, and
  the zero root is `0`.
* Go slices and SSZ bitlists become Lean lists; a bitlist is a `List Bool`
  holding exactly its data bits (`go-bitfield`'s `Len()` is `length`,
  `BitAt i` out of range is `false`).
* `uint64` arithmetic stays in `Nat`: every quantity involved (slots,
  counts, list lengths) is far below `2^64` in all reachable states, and
  no operation in the modelled code can overflow before other limits hit.
* SHA-256 based `HashTreeRoot` calls are external library code
  (`crypto/sha256` via fastssz); the transition is parametrised by a
  `HashModel` bundle of hash functions, exactly as the fork-choice store
  receives the transition functions as injected parameters.
-/

namespace Gean

/-- 32-byte Merkle root, as the natural number given by its big-endian
bytes; `Root.Compare` (lexicographic) is numeric comparison, `IsZero` is
`= 0`. -/
abbrev Root := Nat

/-- `Checkpoint { root, slot }` from `types/primitives.go` /
`types/containers.go`. -/
structure Checkpoint where
  root : Root
  slot : Nat
deriving DecidableEq, Repr

/-- The zero-value checkpoint (`types.Checkpoint{}`). -/
def Checkpoint.zero : Checkpoint := ⟨0, 0⟩

/-! ## The justifiability predicate (`types/primitives.go`) -/

/-- Largest `x ≤ k` with `x * x ≤ n` (and `0` when none exists). -/
def isqrtAux (n : Nat) : Nat → Nat
  | 0 => 0
  | k + 1 => if (k + 1) * (k + 1) ≤ n then k + 1 else isqrtAux n k

/-- `isqrt` of `types/primitives.go`: integer square root of `n`.  The Go
code computes `int(math.Sqrt(float64(n)))` and then compensates by at most
one in each direction, which yields exactly the integer square root for
every value in range; we model it by a structurally recursive search
(provably equal to `Nat.sqrt`). -/
def isqrt (n : Nat) : Nat := isqrtAux n n

theorem isqrtAux_eq_sqrt (n k : Nat) (h : Nat.sqrt n ≤ k) :
    isqrtAux n k = Nat.sqrt n := by
  induction k with
  | zero => unfold isqrtAux; omega
  | succ k ih =>
    unfold isqrtAux
    split
    · next hle => exact Nat.le_antisymm (Nat.le_sqrt.mpr hle) h
    · next hle =>
      apply ih
      have hne : Nat.sqrt n ≠ k + 1 := by
        intro he
        exact hle (he ▸ Nat.sqrt_le n)
      omega

theorem isqrt_eq_sqrt (n : Nat) : isqrt n = Nat.sqrt n :=
  isqrtAux_eq_sqrt n n (Nat.sqrt_le_self n)

/-- `Slot.IsJustifiableAfter` from `types/primitives.go`: candidate slot
`s` is a valid justification target after finalized slot `fin` iff the
distance is at most 5, a perfect square, or pronic.  The pronic test in
the source checks that `4*delta+1` is an odd perfect square. -/
def isJustifiableAfter (s fin : Nat) : Bool :=
  if s < fin then false
  else
    let delta := s - fin
    if delta ≤ 5 then true
    else if isqrt delta * isqrt delta = delta then true
    else
      let v := 4 * delta + 1
      let sqv := isqrt v
      decide (sqv * sqv = v ∧ sqv % 2 = 1)

/-- `4*d+1` is an odd perfect square exactly when `d` is pronic. -/
theorem pronic_iff_odd_square (d : Nat) :
    (∃ x, x * (x + 1) = d) ↔
      (Nat.sqrt (4 * d + 1) * Nat.sqrt (4 * d + 1) = 4 * d + 1 ∧
       Nat.sqrt (4 * d + 1) % 2 = 1) := by
  constructor
  · rintro ⟨x, rfl⟩
    have h : 4 * (x * (x + 1)) + 1 = (2 * x + 1) * (2 * x + 1) := by ring
    rw [h, Nat.sqrt_eq]
    exact ⟨rfl, by omega⟩
  · rintro ⟨hsq, hodd⟩
    set s := Nat.sqrt (4 * d + 1) with hs
    obtain ⟨x, hx⟩ : ∃ x, s = 2 * x + 1 := ⟨s / 2, by omega⟩
    refine ⟨x, ?_⟩
    have : (2 * x + 1) * (2 * x + 1) = 4 * (x * (x + 1)) + 1 := by ring
    rw [hx, this] at hsq
    omega

/-- A natural number is a perfect square exactly when squaring its
integer square root gives it back. -/
theorem square_iff_sqrt (d : Nat) :
    (∃ x, x * x = d) ↔ Nat.sqrt d * Nat.sqrt d = d := Nat.exists_mul_self d

/-- `IsJustifiableAfter` decides exactly the spec's three-rule condition. -/
theorem isJustifiableAfter_iff (c f : Nat) :
    isJustifiableAfter c f = true ↔
      (f ≤ c ∧ (c - f ≤ 5 ∨ (∃ x, x * x = c - f) ∨ (∃ x, x * (x + 1) = c - f))) := by
  unfold isJustifiableAfter
  simp only [isqrt_eq_sqrt]
  split
  · next h => simp only [Bool.false_eq_true, false_iff]; omega
  · next h =>
    have hf : f ≤ c := by omega
    split
    · next h5 => simp [hf, h5]
    · next h5 =>
      split
      · next hsq =>
        simp only [true_iff]
        exact ⟨hf, Or.inr (Or.inl ((square_iff_sqrt _).mpr hsq))⟩
      · next hsq =>
        rw [decide_eq_true_eq]
        constructor
        · rintro ⟨h1, h2⟩
          exact ⟨hf, Or.inr (Or.inr ((pronic_iff_odd_square _).mpr ⟨h1, h2⟩))⟩
        · rintro ⟨-, h | h | h⟩
          · omega
          · exact absurd ((square_iff_sqrt _).mp h) hsq
          · exact (pronic_iff_odd_square _).mp h

/-- C3: `is_justifiable_after(candidate, fin)` is false for
`candidate < fin` and otherwise true exactly when `delta = candidate-fin`
is at most 5, a perfect square, or pronic; with the spec's fin=10 truth
table. -/
theorem C3_is_justifiable_after_characterization :
    (∀ c f : Nat, isJustifiableAfter c f = true ↔
       (f ≤ c ∧ (c - f ≤ 5 ∨ (∃ x, x * x = c - f) ∨ (∃ x, x * (x + 1) = c - f))))
    ∧ ([10, 11, 12, 13, 14, 15, 19, 26, 35, 16, 22, 30].all
         (fun c => isJustifiableAfter c 10)) = true
    ∧ ([17, 18, 20].all (fun c => ¬ isJustifiableAfter c 10)) = true
    ∧ isJustifiableAfter 5 10 = false :=
  ⟨isJustifiableAfter_iff, by decide, by decide, by decide⟩

/-! ## SSZ bitlist view (`go-bitfield` helpers in `consensus/transition.go`) -/

/-- `getBit` of `consensus/transition.go`: bit at `i`, `false` when out of
range (`index >= bl.Len()`). -/
def getBit (bits : List Bool) (i : Nat) : Bool := bits.getD i false

/-- `setBit` of `consensus/transition.go`: grows the bitlist to capacity
`i+1` when needed (new bits `false`), then sets bit `i` to `v`. -/
def setBit (bits : List Bool) (i : Nat) (v : Bool) : List Bool :=
  (if i < bits.length then bits
   else bits ++ List.replicate (i + 1 - bits.length) false).set i v

/-- `appendBitAt` of `consensus/transition.go`: for an empty bitlist it
first creates one of capacity `i+1`, then delegates to `setBit`; the
result coincides with `setBit` in every case. -/
def appendBitAt (bits : List Bool) (i : Nat) (v : Bool) : List Bool :=
  setBit bits i v

theorem setBit_length (bits : List Bool) (i : Nat) (v : Bool) :
    (setBit bits i v).length = max bits.length (i + 1) := by
  unfold setBit
  split <;> simp_all <;> omega

theorem getBit_setBit_self (bits : List Bool) (i : Nat) (v : Bool) :
    getBit (setBit bits i v) i = v := by
  unfold getBit setBit
  split
  · next h => rw [List.getD_eq_getElem?_getD, List.getElem?_set_self (by omega)]; rfl
  · next h =>
    rw [List.getD_eq_getElem?_getD, List.getElem?_set_self (by simp; omega)]
    rfl

theorem getBit_setBit_ne (bits : List Bool) (i j : Nat) (v : Bool) (hij : i ≠ j) :
    getBit (setBit bits i v) j = getBit bits j := by
  unfold getBit setBit
  split
  · next h => rw [List.getD_eq_getElem?_getD, List.getElem?_set_ne hij, ← List.getD_eq_getElem?_getD]
  · next h =>
    rw [List.getD_eq_getElem?_getD, List.getElem?_set_ne hij, ← List.getD_eq_getElem?_getD]
    rcases Nat.lt_or_ge j bits.length with hj | hj
    · rw [List.getD_eq_getElem?_getD, List.getElem?_append_left hj, ← List.getD_eq_getElem?_getD]
    · rw [List.getD_eq_getElem?_getD, List.getD_eq_getElem?_getD]
      rcases Nat.lt_or_ge j (bits.length + (i + 1 - bits.length)) with hj2 | hj2
      · rw [List.getElem?_append_right hj, List.getElem?_eq_none (l := bits) (by omega)]
        simp only [List.getElem?_replicate]
        split <;> rfl
      · rw [List.getElem?_eq_none (by simp; omega), List.getElem?_eq_none (by omega)]

/-! ## State and attestations (`types` of the `consensus` transition) -/

/-- `BlockHeader` from `types/containers.go`. -/
structure BlockHeader where
  slot : Nat
  proposerIndex : Nat
  parentRoot : Root
  stateRoot : Root
  bodyRoot : Root
deriving DecidableEq, Repr

/-- The vote payload read by `ProcessAttestations`: the validator id with
the attestation data's slot and head / target / source checkpoints
(`SignedVote` / `Attestation` in the sources; the signature is opaque and
never read by the transition). -/
structure Attestation where
  validatorID : Nat
  slot : Nat
  head : Checkpoint
  target : Checkpoint
  source : Checkpoint
deriving DecidableEq, Repr

/-- `Block` from `types/containers.go`; the body's attestation list is
inlined (`BlockBody` has no other field). -/
structure Block where
  slot : Nat
  proposerIndex : Nat
  parentRoot : Root
  stateRoot : Root
  attestations : List Attestation
deriving DecidableEq, Repr

/-- The consensus `State` (`types` package).  `numValidators` models
`Config.NumValidators` (equivalently the length of the immutable
validator registry), `genesisTime` the `Config.GenesisTime`. -/
structure State where
  numValidators : Nat
  genesisTime : Nat
  slot : Nat
  latestBlockHeader : BlockHeader
  latestJustified : Checkpoint
  latestFinalized : Checkpoint
  historicalBlockHashes : List Root
  justifiedSlots : List Bool
  justificationRoots : List Root
  justificationValidators : List Bool
deriving DecidableEq, Repr

/-! ## Justification tracking helpers (`GetJustifications` /
`SetJustifications` / `CountVotes`) -/

/-- The in-flight justifications map, from target root to the
per-validator vote row.  The Go `map` is modelled as an association list
with unique keys; the transition only ever looks a key up, inserts a
fresh key, or deletes one, and the final `SetJustifications` sorts keys,
so the list order never influences the produced state. -/
abbrev Justifications := List (Root × List Bool)

/-- Go map lookup (`justifications[root]`) on the association-list
model: the row stored under key `r`, if any. -/
def lookupJ (j : Justifications) (r : Root) : Option (List Bool) :=
  match j with
  | [] => none
  | p :: t => if p.1 = r then some p.2 else lookupJ t r

/-- `CountVotes`: number of `true` entries in a vote row. -/
def countVotes (votes : List Bool) : Nat := votes.count true

/-- `GetJustifications`: rebuild the map from `justification_roots` and
the flattened row-major `justification_validators` bitlist; row `i`,
column `j` is bit `i*numValidators + j`, out-of-range bits read `false`. -/
def getJustifications (s : State) : Justifications :=
  s.justificationRoots.enum.map fun p =>
    (p.2, (List.range s.numValidators).map fun j =>
      getBit s.justificationValidators (p.1 * s.numValidators + j))

/-- Insertion sort of roots in ascending order, modelling `sortRoots`
(lexicographic byte order is numeric order of the roots). -/
def sortRoots (roots : List Root) : List Root :=
  roots.insertionSort (· ≤ ·)

/-- `SetJustifications`: flatten the map back into sorted
`justification_roots` and the row-major `justification_validators`
bitlist.  Every row carries exactly `numValidators` bits (rows are
created by `make([]bool, numValidators)`); `takeD` mirrors the bitlist
being allocated at exactly `len(roots)*numValidators` bits.  An empty map
stores an empty root list and the one-bit `NewBitlist(1)` buffer. -/
def setJustifications (s : State) (j : Justifications) : State :=
  if j.isEmpty then
    { s with justificationRoots := [], justificationValidators := [false] }
  else
    let roots := sortRoots (j.map (·.1))
    let flat := roots.flatMap fun r =>
      ((lookupJ j r).getD []).takeD s.numValidators false
    { s with justificationRoots := roots, justificationValidators := flat }

/-- Insert an all-false row for `r` when absent
(`justifications[root] = make([]bool, numValidators)`). -/
def insertRowIfAbsent (j : Justifications) (r : Root) (n : Nat) : Justifications :=
  match lookupJ j r with
  | some _ => j
  | none => j ++ [(r, List.replicate n false)]

/-- Mark the validator's vote in the row of `r`
(`justifications[root][validatorID] = true`; the source only writes when
the cell is still false, which produces the same row).  This total
function covers the in-range behaviour only: for a validator id at or
beyond the row length the Go read panics (slice index out of range),
which `attStepP` below models as `none`, while `List.set` out of range
is the identity. -/
def recordVote (j : Justifications) (r : Root) (vid : Nat) : Justifications :=
  j.map fun p => if p.1 = r then (p.1, p.2.set vid true) else p

/-- Delete the row of `r` (`delete(justifications, root)`). -/
def eraseRow (j : Justifications) (r : Root) : Justifications :=
  j.filter fun p => ¬ p.1 = r

/-! ## `ProcessAttestations` (`consensus/transition.go`, 2/3-supermajority
justification engine) -/

/-- One iteration of the `ProcessAttestations` loop: run the six
validations (skipping silently on failure), record the vote, and on a
2/3 supermajority justify the target and run the finalization check. -/
def attStep (acc : State × Justifications) (a : Attestation) : State × Justifications :=
  let st := acc.1
  let j := acc.2
  let sourceSlot := a.source.slot
  let targetSlot := a.target.slot
  if ¬ getBit st.justifiedSlots sourceSlot then acc
  else if getBit st.justifiedSlots targetSlot then acc
  else if ¬ (sourceSlot < st.historicalBlockHashes.length ∧
             a.source.root = st.historicalBlockHashes.getD sourceSlot 0) then acc
  else if ¬ (targetSlot < st.historicalBlockHashes.length ∧
             a.target.root = st.historicalBlockHashes.getD targetSlot 0) then acc
  else if a.target.slot ≤ a.source.slot then acc
  else if ¬ isJustifiableAfter a.target.slot st.latestFinalized.slot then acc
  else
    let j2 := recordVote (insertRowIfAbsent j a.target.root st.numValidators) a.target.root a.validatorID
    let count := countVotes ((lookupJ j2 a.target.root).getD [])
    if 3 * count ≥ 2 * st.numValidators then
      let canFinalize :=
        (List.range' (sourceSlot + 1) (targetSlot - (sourceSlot + 1))).all
          fun s => ¬ isJustifiableAfter s st.latestFinalized.slot
      ({ st with
          latestJustified := a.target
          justifiedSlots := setBit st.justifiedSlots targetSlot true
          latestFinalized := if canFinalize then a.source else st.latestFinalized },
       eraseRow j2 a.target.root)
    else (st, j2)

/-- `ProcessAttestations` of `consensus/transition.go`: fold the loop over
the attestation list starting from the deep-copied state and the
reconstructed justifications map, then persist the map.  The Go function
can only return `nil` errors, so the model is total. -/
def processAttestations (s : State) (atts : List Attestation) : State :=
  let r := atts.foldl attStep (s, getJustifications s)
  setJustifications r.1 r.2

/-- The composite "record this vote" operation of the loop body. -/
def trackVote (j : Justifications) (r : Root) (vid n : Nat) : Justifications :=
  recordVote (insertRowIfAbsent j r n) r vid

/-- The six validation predicates of `ProcessAttestations`, as one
proposition: source justified, target not yet justified, source and
target roots match history, target after source, target justifiable
after the finalized slot. -/
def ValidAtt (st : State) (a : Attestation) : Prop :=
  getBit st.justifiedSlots a.source.slot = true ∧
  getBit st.justifiedSlots a.target.slot = false ∧
  a.source.slot < st.historicalBlockHashes.length ∧
  a.source.root = st.historicalBlockHashes.getD a.source.slot 0 ∧
  a.target.slot < st.historicalBlockHashes.length ∧
  a.target.root = st.historicalBlockHashes.getD a.target.slot 0 ∧
  a.source.slot < a.target.slot ∧
  isJustifiableAfter a.target.slot st.latestFinalized.slot = true

instance (st : State) (a : Attestation) : Decidable (ValidAtt st a) := by
  unfold ValidAtt
  infer_instance

theorem lookupJ_recordVote (j : Justifications) (r r' : Root) (v : Nat) :
    lookupJ (recordVote j r v) r' =
      (lookupJ j r').map (fun row => if r' = r then row.set v true else row) := by
  induction j with
  | nil => rfl
  | cons p t ih =>
    by_cases hp : p.1 = r <;> by_cases hp' : p.1 = r'
    · have hrr : r' = r := hp'.symm.trans hp
      simp [recordVote, lookupJ, hp, hp', hrr]
    · have hrr' : ¬ r = r' := fun h => hp' (hp.trans h)
      simp only [recordVote, List.map_cons] at ih ⊢
      simp [lookupJ, hp, hp', hrr', ih]
    · have hrr : ¬ r' = r := fun h => hp (hp'.trans h)
      simp [recordVote, lookupJ, hp, hp', hrr]
    · simp only [recordVote, List.map_cons] at ih ⊢
      simp [lookupJ, hp, hp', ih]

theorem lookupJ_append_self (j : Justifications) (r : Root) (x : List Bool)
    (h : lookupJ j r = none) : lookupJ (j ++ [(r, x)]) r = some x := by
  induction j with
  | nil => simp [lookupJ]
  | cons p t ih =>
    by_cases hp : p.1 = r
    · simp [lookupJ, hp] at h
    · simp only [lookupJ, if_neg hp] at h
      simpa [lookupJ, hp] using ih h

theorem lookupJ_insertRowIfAbsent_self (j : Justifications) (r : Root) (n : Nat) :
    lookupJ (insertRowIfAbsent j r n) r =
      some ((lookupJ j r).getD (List.replicate n false)) := by
  unfold insertRowIfAbsent
  cases hj : lookupJ j r with
  | some row => simp [hj]
  | none => simp [lookupJ_append_self j r _ hj]

theorem lookupJ_eraseRow_self (j : Justifications) (r : Root) :
    lookupJ (eraseRow j r) r = none := by
  induction j with
  | nil => rfl
  | cons p t ih =>
    by_cases hp : p.1 = r
    · simpa [eraseRow, List.filter_cons, hp] using ih
    · simpa [eraseRow, List.filter_cons, hp, lookupJ] using ih

theorem insertRowIfAbsent_of_mem (j : Justifications) (r : Root) (n : Nat)
    (h : ∃ row, lookupJ j r = some row) : insertRowIfAbsent j r n = j := by
  obtain ⟨row, hrow⟩ := h
  unfold insertRowIfAbsent
  rw [hrow]

/-- Recording the same (target root, validator) cell twice equals
recording it once: a validator's vote lands in a cell at most once. -/
theorem trackVote_idem (j : Justifications) (r : Root) (v n : Nat) :
    trackVote (trackVote j r v n) r v n = trackVote j r v n := by
  unfold trackVote
  have h2 : insertRowIfAbsent (recordVote (insertRowIfAbsent j r n) r v) r n =
      recordVote (insertRowIfAbsent j r n) r v := by
    apply insertRowIfAbsent_of_mem
    rw [lookupJ_recordVote, lookupJ_insertRowIfAbsent_self]
    exact ⟨_, rfl⟩
  rw [h2]
  unfold recordVote
  rw [List.map_map]
  apply List.map_congr_left
  intro p _
  by_cases hp : p.1 = r <;> simp [Function.comp, hp, List.set_set]

/-- Under the six validations, the loop body records the vote and then
branches exactly on the 2/3 threshold test. -/
theorem attStep_of_valid (st : State) (j : Justifications) (a : Attestation)
    (h : ValidAtt st a) :
    attStep (st, j) a =
      (let j2 := trackVote j a.target.root a.validatorID st.numValidators
       let c := countVotes ((lookupJ j2 a.target.root).getD [])
       if 3 * c ≥ 2 * st.numValidators then
         ({ st with
             latestJustified := a.target
             justifiedSlots := setBit st.justifiedSlots a.target.slot true
             latestFinalized :=
               if (List.range' (a.source.slot + 1) (a.target.slot - (a.source.slot + 1))).all
                    (fun s => ¬ isJustifiableAfter s st.latestFinalized.slot) then a.source
               else st.latestFinalized },
          eraseRow j2 a.target.root)
       else (st, j2)) := by
  obtain ⟨h1, h2, h3, h4, h5, h6, h7, h8⟩ := h
  unfold attStep
  dsimp only
  rw [if_neg (by simp [h1]), if_neg (by simp [h2]),
      if_neg (not_not_intro ⟨h3, h4⟩), if_neg (not_not_intro ⟨h5, h6⟩),
      if_neg (by omega), if_neg (by simp [h8])]
  rfl

/-! ### The loop body with its runtime partiality explicit.  After the
six validations (transition.go:134-166) the Go code reads
`justifications[vote.Target.Root][validatorID]` (transition.go:174) with
the unvalidated validator id; at or beyond the row length (rows are
`make([]bool, NumValidators)`) that read is a runtime panic.  `none`
models the panic; on in-range ids the body is exactly `attStep`. -/

def attStepP (acc : State × Justifications) (a : Attestation) :
    Option (State × Justifications) :=
  let st := acc.1
  let j := acc.2
  if ValidAtt st a then
    if a.validatorID <
        ((lookupJ (insertRowIfAbsent j a.target.root st.numValidators)
            a.target.root).getD []).length then
      some (attStep acc a)
    else none
  else some acc

/-- The `for _, signedVote := range attestations` loop, stopping at the
first panicking iteration. -/
def attsFoldP : State × Justifications → List Attestation →
    Option (State × Justifications)
  | acc, [] => some acc
  | acc, a :: t =>
    match attStepP acc a with
    | none => none
    | some acc2 => attsFoldP acc2 t

/-- `ProcessAttestations` with the panic explicit: `none` when some
iteration indexes a justification row out of range. -/
def processAttestationsP (s : State) (atts : List Attestation) : Option State :=
  match attsFoldP (s, getJustifications s) atts with
  | none => none
  | some r => some (setJustifications r.1 r.2)

theorem attStep_of_not_valid (st : State) (j : Justifications) (a : Attestation)
    (h : ¬ ValidAtt st a) : attStep (st, j) a = (st, j) := by
  unfold attStep
  dsimp only
  split
  next => rfl
  next h1 =>
    split
    next => rfl
    next h2 =>
      split
      next => rfl
      next h3 =>
        split
        next => rfl
        next h4 =>
          split
          next => rfl
          next h5 =>
            split
            next => rfl
            next h6 =>
              obtain ⟨h3a, h3b⟩ := not_not.mp h3
              obtain ⟨h4a, h4b⟩ := not_not.mp h4
              exact absurd
                ⟨not_not.mp h1, Bool.eq_false_iff.mpr h2, h3a, h3b, h4a, h4b,
                  Nat.not_le.mp h5, not_not.mp h6⟩ h

theorem attStepP_some (acc : State × Justifications) (a : Attestation)
    (r : State × Justifications) (h : attStepP acc a = some r) :
    r = attStep acc a := by
  unfold attStepP at h
  dsimp only at h
  split at h
  · split at h
    · exact (Option.some.inj h).symm
    · exact absurd h (by simp)
  · next hv =>
    obtain ⟨st, j⟩ := acc
    rw [attStep_of_not_valid st j a hv]
    exact (Option.some.inj h).symm

theorem attsFoldP_some (atts : List Attestation) :
    ∀ (acc r : State × Justifications), attsFoldP acc atts = some r →
      r = atts.foldl attStep acc := by
  induction atts with
  | nil =>
    intro acc r h
    exact (Option.some.inj h).symm
  | cons a t ih =>
    intro acc r h
    unfold attsFoldP at h
    cases hs : attStepP acc a with
    | none => rw [hs] at h; exact absurd h (by simp)
    | some acc2 =>
      rw [hs] at h
      dsimp only at h
      rw [List.foldl_cons, ← attStepP_some acc a acc2 hs]
      exact ih acc2 r h

theorem processAttestationsP_some (s : State) (atts : List Attestation)
    (s' : State) (h : processAttestationsP s atts = some s') :
    s' = processAttestations s atts := by
  unfold processAttestationsP at h
  cases hf : attsFoldP (s, getJustifications s) atts with
  | none => rw [hf] at h; exact absurd h (by simp)
  | some r =>
    rw [hf] at h
    dsimp only at h
    rw [← Option.some.inj h, attsFoldP_some atts _ r hf]
    rfl

/-- Every stored row has the validator-count length: rows come from the
state's row-major bitlist or from `make([]bool, NumValidators)`. -/
def RowsLen (j : Justifications) (n : Nat) : Prop :=
  ∀ p ∈ j, p.2.length = n

theorem rowsLen_getJustifications (s : State) :
    RowsLen (getJustifications s) s.numValidators := by
  intro p hp
  unfold getJustifications at hp
  rw [List.mem_map] at hp
  obtain ⟨q, _, rfl⟩ := hp
  simp

theorem lookupJ_mem (j : Justifications) (r : Root) (row : List Bool)
    (h : lookupJ j r = some row) : (r, row) ∈ j := by
  induction j with
  | nil => exact absurd h (by simp [lookupJ])
  | cons p t ih =>
    unfold lookupJ at h
    split at h
    · next hp =>
      obtain rfl := Option.some.inj h
      simp [← hp]
    · simp [ih h]

theorem rowsLen_insertRowIfAbsent (j : Justifications) (r : Root) (n : Nat)
    (h : RowsLen j n) : RowsLen (insertRowIfAbsent j r n) n := by
  intro p hp
  unfold insertRowIfAbsent at hp
  split at hp
  · exact h p hp
  · rcases List.mem_append.mp hp with hp1 | hp1
    · exact h p hp1
    · simp at hp1
      rw [hp1]
      simp

theorem rowsLen_recordVote (j : Justifications) (r : Root) (v n : Nat)
    (h : RowsLen j n) : RowsLen (recordVote j r v) n := by
  intro p hp
  unfold recordVote at hp
  rw [List.mem_map] at hp
  obtain ⟨q, hq, rfl⟩ := hp
  split
  · simp [h q hq]
  · exact h q hq

theorem rowsLen_eraseRow (j : Justifications) (r : Root) (n : Nat)
    (h : RowsLen j n) : RowsLen (eraseRow j r) n := by
  intro p hp
  exact h p (List.mem_of_mem_filter hp)

theorem rowsLen_lookup_insert (j : Justifications) (r : Root) (n : Nat)
    (h : RowsLen j n) :
    ((lookupJ (insertRowIfAbsent j r n) r).getD []).length = n := by
  rw [lookupJ_insertRowIfAbsent_self]
  cases hj : lookupJ j r with
  | none => simp
  | some row => simp [h (r, row) (lookupJ_mem j r row hj)]

theorem attStep_numValidators (acc : State × Justifications) (a : Attestation) :
    (attStep acc a).1.numValidators = acc.1.numValidators := by
  obtain ⟨st, j⟩ := acc
  simp only [attStep]
  repeat' split
  all_goals rfl

theorem rowsLen_attStep (acc : State × Justifications) (a : Attestation)
    (h : RowsLen acc.2 acc.1.numValidators) :
    RowsLen (attStep acc a).2 acc.1.numValidators := by
  obtain ⟨st, j⟩ := acc
  by_cases hv : ValidAtt st a
  · rw [attStep_of_valid st j a hv]
    dsimp only
    have hj2 : RowsLen (trackVote j a.target.root a.validatorID st.numValidators)
        st.numValidators :=
      rowsLen_recordVote _ _ _ _ (rowsLen_insertRowIfAbsent j _ _ h)
    split
    · exact rowsLen_eraseRow _ _ _ hj2
    · exact hj2
  · rw [attStep_of_not_valid st j a hv]
    exact h

theorem attStepP_in_range (acc : State × Justifications) (a : Attestation)
    (hrows : RowsLen acc.2 acc.1.numValidators)
    (hvid : a.validatorID < acc.1.numValidators) :
    attStepP acc a = some (attStep acc a) := by
  unfold attStepP
  dsimp only
  split
  · rw [if_pos (by rw [rowsLen_lookup_insert acc.2 a.target.root _ hrows]; exact hvid)]
  · next hv =>
    obtain ⟨st, j⟩ := acc
    rw [attStep_of_not_valid st j a hv]

theorem attsFoldP_in_range (atts : List Attestation) :
    ∀ acc : State × Justifications, RowsLen acc.2 acc.1.numValidators →
      (∀ a ∈ atts, a.validatorID < acc.1.numValidators) →
      attsFoldP acc atts = some (atts.foldl attStep acc) := by
  induction atts with
  | nil => intro acc _ _; rfl
  | cons a t ih =>
    intro acc hrows hvid
    unfold attsFoldP
    rw [attStepP_in_range acc a hrows (hvid a (by simp))]
    dsimp only
    rw [List.foldl_cons]
    exact ih (attStep acc a)
      (by rw [attStep_numValidators]; exact rowsLen_attStep acc a hrows)
      (fun x hx => by rw [attStep_numValidators]; exact hvid x (by simp [hx]))

/-- In-range bodies never trip the row read: the partial model returns
the total transition's result. -/
theorem processAttestationsP_in_range (s : State) (atts : List Attestation)
    (h : ∀ a ∈ atts, a.validatorID < s.numValidators) :
    processAttestationsP s atts = some (processAttestations s atts) := by
  unfold processAttestationsP processAttestations
  rw [attsFoldP_in_range atts (s, getJustifications s)
    (rowsLen_getJustifications s) h]

/-- The C1 seed state: 5 validators, slots 0 and 1 in history (roots 1
and 2), slot 0 justified. -/
def c1State : State :=
  { numValidators := 5, genesisTime := 0, slot := 2,
    latestBlockHeader := ⟨2, 0, 0, 0, 0⟩,
    latestJustified := ⟨1, 0⟩, latestFinalized := ⟨1, 0⟩,
    historicalBlockHashes := [1, 2],
    justifiedSlots := [true],
    justificationRoots := [], justificationValidators := [false] }

/-- A vote by validator `v` with source slot 0 and target slot 1. -/
def c1Att (v : Nat) : Attestation := ⟨v, 1, ⟨2, 1⟩, ⟨2, 1⟩, ⟨1, 0⟩⟩

/-- C1: in `process_attestations` every vote that passes the six
validations lands in its (target root, validator) cell at most once
(recording is idempotent), and — for a valid attestation — the target is
justified (latest_justified set to it, its justified-slots bit set, its
row erased from the pending matrix) exactly when the recorded row's count
satisfies `3·count ≥ 2·num_validators`; concretely, with 5 validators and
slot 0 justified, 4 valid source-0 / target-1 attestations drive
`latest_justified.slot` to 1 with the row removed, while 3 leave it at 0
with the target root still in `justification_roots`. -/
theorem C1_supermajority_justification :
    (∀ j r v n, trackVote (trackVote j r v n) r v n = trackVote j r v n)
    ∧ (∀ st j a, ValidAtt st a →
        (((attStep (st, j) a).1.latestJustified = a.target ∧
          getBit (attStep (st, j) a).1.justifiedSlots a.target.slot = true ∧
          lookupJ (attStep (st, j) a).2 a.target.root = none)
         ↔ 3 * countVotes
               ((lookupJ (trackVote j a.target.root a.validatorID st.numValidators)
                   a.target.root).getD [])
             ≥ 2 * st.numValidators))
    ∧ (processAttestations c1State [c1Att 0, c1Att 1, c1Att 2, c1Att 3]).latestJustified.slot = 1
    ∧ getBit (processAttestations c1State
        [c1Att 0, c1Att 1, c1Att 2, c1Att 3]).justifiedSlots 1 = true
    ∧ (processAttestations c1State [c1Att 0, c1Att 1, c1Att 2, c1Att 3]).justificationRoots = []
    ∧ (processAttestations c1State [c1Att 0, c1Att 1, c1Att 2]).latestJustified.slot = 0
    ∧ (processAttestations c1State [c1Att 0, c1Att 1, c1Att 2]).justificationRoots = [2] := by
  refine ⟨trackVote_idem, fun st j a h => ?_, by decide, by decide, by decide,
    by decide, by decide⟩
  have h2 := h.2.1
  rw [attStep_of_valid st j a h]
  dsimp only
  split
  · next hth =>
    simp only [getBit_setBit_self, lookupJ_eraseRow_self]
    exact iff_of_true (by simp) hth
  · next hth =>
    simp only [h2]
    constructor
    · rintro ⟨-, hbad, -⟩
      cases hbad
    · intro hc
      exact absurd hc hth

/-- Witness for `C1_supermajority_justification` at a concrete valid
attestation: the first C1 vote against the seed state. -/
theorem C1_supermajority_justification_witness :
    ValidAtt c1State (c1Att 0) ∧
    (((attStep (c1State, getJustifications c1State) (c1Att 0)).1.latestJustified
          = (c1Att 0).target ∧
      getBit (attStep (c1State, getJustifications c1State) (c1Att 0)).1.justifiedSlots
          (c1Att 0).target.slot = true ∧
      lookupJ (attStep (c1State, getJustifications c1State) (c1Att 0)).2
          (c1Att 0).target.root = none)
     ↔ 3 * countVotes
           ((lookupJ (trackVote (getJustifications c1State) (c1Att 0).target.root
               (c1Att 0).validatorID c1State.numValidators) (c1Att 0).target.root).getD [])
         ≥ 2 * c1State.numValidators) :=
  ⟨by decide,
   C1_supermajority_justification.2.1 c1State (getJustifications c1State) (c1Att 0) (by decide)⟩

/-- The C2 "finalization across a gap" seed state: 1 validator, history
roots `i+1` at slots 0..9, slots 0 and 6 justified, finalized slot 0. -/
def c2GapState : State :=
  { numValidators := 1, genesisTime := 0, slot := 10,
    latestBlockHeader := ⟨10, 0, 0, 0, 0⟩,
    latestJustified := ⟨7, 6⟩, latestFinalized := ⟨1, 0⟩,
    historicalBlockHashes := [1, 2, 3, 4, 5, 6, 7, 8, 9, 10],
    justifiedSlots := [true, false, false, false, false, false, true],
    justificationRoots := [], justificationValidators := [false] }

/-- Supermajority (1-of-1) vote with source slot 6 and target slot 9. -/
def c2GapAtt : Attestation := ⟨0, 10, ⟨10, 9⟩, ⟨10, 9⟩, ⟨7, 6⟩⟩

/-- The C2 "justifiable gap blocks finalization" seed state: 1 validator,
history roots at slots 0..4, slot 0 justified, finalized slot 0. -/
def c2NoFinState : State :=
  { numValidators := 1, genesisTime := 0, slot := 5,
    latestBlockHeader := ⟨5, 0, 0, 0, 0⟩,
    latestJustified := ⟨1, 0⟩, latestFinalized := ⟨1, 0⟩,
    historicalBlockHashes := [1, 2, 3, 4, 5],
    justifiedSlots := [true],
    justificationRoots := [], justificationValidators := [false] }

/-- Supermajority (1-of-1) vote with source slot 0 and target slot 4. -/
def c2NoFinAtt : Attestation := ⟨0, 5, ⟨5, 4⟩, ⟨5, 4⟩, ⟨1, 0⟩⟩

/-- C2: when an attestation justifies its target, `latest_finalized`
becomes the source exactly when every slot strictly between source and
target fails `is_justifiable_after` w.r.t. the current finalized slot
(otherwise it keeps its previous value); concretely with finalized slot 0
a supermajority source-6 / target-9 vote finalizes slot 6 (slots 7, 8 are
unjustifiable), while source-0 / target-4 leaves finalized at 0 (slots
1..3 are justifiable). -/
theorem C2_finalization_on_unjustifiable_gap :
    (∀ st j a, ValidAtt st a →
      3 * countVotes
          ((lookupJ (trackVote j a.target.root a.validatorID st.numValidators)
              a.target.root).getD [])
        ≥ 2 * st.numValidators →
      ((∀ s, a.source.slot < s → s < a.target.slot →
          isJustifiableAfter s st.latestFinalized.slot = false) →
        (attStep (st, j) a).1.latestFinalized = a.source)
      ∧ ((∃ s, a.source.slot < s ∧ s < a.target.slot ∧
            isJustifiableAfter s st.latestFinalized.slot = true) →
        (attStep (st, j) a).1.latestFinalized = st.latestFinalized))
    ∧ (processAttestations c2GapState [c2GapAtt]).latestFinalized.slot = 6
    ∧ (processAttestations c2GapState [c2GapAtt]).latestJustified.slot = 9
    ∧ (processAttestations c2NoFinState [c2NoFinAtt]).latestFinalized.slot = 0
    ∧ (processAttestations c2NoFinState [c2NoFinAtt]).latestJustified.slot = 4 := by
  refine ⟨fun st j a h hth => ?_, by decide, by decide, by decide, by decide⟩
  have h7 := h.2.2.2.2.2.2.1
  rw [attStep_of_valid st j a h]
  dsimp only
  rw [if_pos hth]
  constructor
  · intro hgap
    have hall : (List.range' (a.source.slot + 1) (a.target.slot - (a.source.slot + 1))).all
        (fun s => ¬ isJustifiableAfter s st.latestFinalized.slot) = true := by
      rw [List.all_eq_true]
      intro s hs
      rw [List.mem_range'_1] at hs
      simp only [decide_eq_true_eq]
      intro hj
      rw [hgap s (by omega) (by omega)] at hj
      cases hj
    rw [if_pos hall]
  · rintro ⟨s, hs1, hs2, hs3⟩
    have hnotall : ¬ ((List.range' (a.source.slot + 1) (a.target.slot - (a.source.slot + 1))).all
        (fun s => ¬ isJustifiableAfter s st.latestFinalized.slot) = true) := by
      rw [List.all_eq_true]
      intro hall
      have hsp := hall s (by rw [List.mem_range'_1]; omega)
      simp only [decide_eq_true_eq] at hsp
      exact hsp hs3
    rw [if_neg hnotall]

/-! ## Slot and header processing (`consensus/transition.go`) -/

/-- The hash functions used by the transition: `HashTreeRoot` of states,
headers, bodies and blocks.  These are SHA-256 Merkle roots computed by
the external `fastssz` library; the transition and the fork-choice store
are parametrised over them (the store receives the transition functions
as injected parameters in the same spirit). -/
structure HashModel where
  htrState : State → Root
  htrHeader : BlockHeader → Root
  htrBody : List Attestation → Root
  htrBlock : Block → Root

/-- The transition error kinds (`fmt.Errorf` sites, one per validation). -/
inductive TErr where
  | notFuture
  | slotMismatch
  | notNewerThanHead
  | wrongProposer
  | parentMismatch
  | parentNotFound
  | badStateRoot
  | headNotFound
  | notProposer
  | loopLimit
deriving DecidableEq, Repr

/-- `ProcessSlot`: when the cached header state root is zero, fill it with
the current state's hash tree root. -/
def processSlot (H : HashModel) (s : State) : State :=
  if s.latestBlockHeader.stateRoot = 0 then
    { s with latestBlockHeader := { s.latestBlockHeader with stateRoot := H.htrState s } }
  else s

theorem processSlot_slot (H : HashModel) (s : State) : (processSlot H s).slot = s.slot := by
  unfold processSlot
  split <;> rfl

/-- The `for state.Slot < targetSlot` loop of `ProcessSlots`: run
`ProcessSlot`, then increment the slot on a fresh copy.  The fuel
argument is `target - slot` at entry, which matches the loop exactly
(the slot rises by one per iteration until it reaches the target). -/
def processSlotsLoop (H : HashModel) (target : Nat) : Nat → State → State
  | 0, s => s
  | fuel + 1, s =>
    if s.slot < target then
      processSlotsLoop H target fuel { processSlot H s with slot := s.slot + 1 }
    else s

def processSlotsGo (H : HashModel) (target : Nat) (s : State) : State :=
  processSlotsLoop H target (target - s.slot) s

/-- `ProcessSlots`: reject a non-future target, else advance slot by slot. -/
def processSlots (H : HashModel) (s : State) (target : Nat) : Except TErr State :=
  if s.slot ≥ target then .error .notFuture
  else .ok (processSlotsGo H target s)

/-- The genesis special case of `ProcessBlockHeader`: the first block
after genesis (`state.latest_block_header.slot == 0`) sets both
checkpoint roots to its parent root; the slots stay 0. -/
def markGenesisJustified (s : State) (parentRoot : Root) : State :=
  if s.latestBlockHeader.slot = 0 then
    { s with latestJustified := { s.latestJustified with root := parentRoot }
             latestFinalized := { s.latestFinalized with root := parentRoot } }
  else s

theorem markGenesisJustified_proj (s : State) (r : Root) :
    (markGenesisJustified s r).numValidators = s.numValidators ∧
    (markGenesisJustified s r).slot = s.slot ∧
    (markGenesisJustified s r).latestBlockHeader = s.latestBlockHeader ∧
    (markGenesisJustified s r).latestJustified.slot = s.latestJustified.slot ∧
    (markGenesisJustified s r).latestFinalized.slot = s.latestFinalized.slot ∧
    (markGenesisJustified s r).historicalBlockHashes = s.historicalBlockHashes ∧
    (markGenesisJustified s r).justifiedSlots = s.justifiedSlots := by
  unfold markGenesisJustified
  split <;> exact ⟨rfl, rfl, rfl, rfl, rfl, rfl, rfl⟩

/-- `ProcessBlockHeader`: the four validations in order, then the history
/ justified-slots bookkeeping and the new (state-root-less) header. -/
def processBlockHeader (H : HashModel) (s : State) (b : Block) : Except TErr State :=
  if b.slot ≠ s.slot then .error .slotMismatch
  else if b.slot ≤ s.latestBlockHeader.slot then .error .notNewerThanHead
  else if b.proposerIndex ≠ b.slot % s.numValidators then .error .wrongProposer
  else if b.parentRoot ≠ H.htrHeader s.latestBlockHeader then .error .parentMismatch
  else
    let parentSlot := s.latestBlockHeader.slot
    let s1 := markGenesisJustified s b.parentRoot
    let empties := b.slot - s.latestBlockHeader.slot - 1
    .ok { s1 with
      historicalBlockHashes :=
        (s1.historicalBlockHashes ++ [b.parentRoot]) ++ List.replicate empties 0
      justifiedSlots :=
        (List.range' (parentSlot + 1) empties).foldl
          (fun bs i => appendBitAt bs i false)
          (appendBitAt s1.justifiedSlots parentSlot (parentSlot = 0))
      latestBlockHeader :=
        { slot := b.slot, proposerIndex := b.proposerIndex, parentRoot := b.parentRoot,
          stateRoot := 0, bodyRoot := H.htrBody b.attestations } }

/-- `ProcessBlock`: header processing then attestation processing (the
header error, if any, is propagated unchanged). -/
def processBlock (H : HashModel) (s : State) (b : Block) : Except TErr State :=
  match processBlockHeader H s b with
  | .error e => .error e
  | .ok s1 => .ok (processAttestations s1 b.attestations)

/-- `ProcessBlock` with the attestation-stage panic explicit (`none` =
the Go runtime panic inside `ProcessAttestations`). -/
def processBlockP (H : HashModel) (s : State) (b : Block) :
    Option (Except TErr State) :=
  match processBlockHeader H s b with
  | .error e => some (.error e)
  | .ok s1 =>
    match processAttestationsP s1 b.attestations with
    | none => none
    | some s2 => some (.ok s2)

theorem processBlockP_some (H : HashModel) (s : State) (b : Block)
    (r : Except TErr State) (h : processBlockP H s b = some r) :
    r = processBlock H s b := by
  unfold processBlockP processBlock at *
  cases hh : processBlockHeader H s b with
  | error e => rw [hh] at h; exact (Option.some.inj h).symm
  | ok s1 =>
    rw [hh] at h
    dsimp only at h
    cases hp : processAttestationsP s1 b.attestations with
    | none => rw [hp] at h; exact absurd h (by simp)
    | some s2 =>
      rw [hp] at h
      dsimp only at h
      rw [← Option.some.inj h, processAttestationsP_some s1 b.attestations s2 hp]

theorem processSlotsLoop_slot (H : HashModel) (target : Nat) (fuel : Nat) :
    ∀ s : State, s.slot ≤ target → target - s.slot ≤ fuel →
      (processSlotsLoop H target fuel s).slot = target := by
  induction fuel with
  | zero =>
    intro s h1 h2
    unfold processSlotsLoop
    omega
  | succ fuel ih =>
    intro s h1 h2
    unfold processSlotsLoop
    split
    · next hlt =>
      have hs : ({ processSlot H s with slot := s.slot + 1 } : State).slot = s.slot + 1 := rfl
      exact ih _ (by rw [hs]; omega) (by rw [hs]; omega)
    · next hlt => omega

theorem processSlotsGo_slot (H : HashModel) (target : Nat) (s : State)
    (h : s.slot ≤ target) : (processSlotsGo H target s).slot = target :=
  processSlotsLoop_slot H target (target - s.slot) s h (Nat.le_refl _)

theorem processBlockHeader_branches (H : HashModel) (s : State) (b : Block) :
    (b.slot ≠ s.slot → processBlockHeader H s b = Except.error TErr.slotMismatch) ∧
    (b.slot = s.slot → b.slot ≤ s.latestBlockHeader.slot →
      processBlockHeader H s b = Except.error TErr.notNewerThanHead) ∧
    (b.slot = s.slot → ¬ b.slot ≤ s.latestBlockHeader.slot →
      b.proposerIndex ≠ b.slot % s.numValidators →
      processBlockHeader H s b = Except.error TErr.wrongProposer) ∧
    (b.slot = s.slot → ¬ b.slot ≤ s.latestBlockHeader.slot →
      b.proposerIndex = b.slot % s.numValidators →
      b.parentRoot ≠ H.htrHeader s.latestBlockHeader →
      processBlockHeader H s b = Except.error TErr.parentMismatch) ∧
    (b.slot = s.slot → ¬ b.slot ≤ s.latestBlockHeader.slot →
      b.proposerIndex = b.slot % s.numValidators →
      b.parentRoot = H.htrHeader s.latestBlockHeader →
      ∃ s', processBlockHeader H s b = Except.ok s') := by
  refine ⟨?_, ?_, ?_, ?_, ?_⟩
  · intro h1
    simp [processBlockHeader, h1]
  · intro h1 h2
    have h2' : s.slot ≤ s.latestBlockHeader.slot := by omega
    simp [processBlockHeader, h1, h2']
  · intro h1 h2 h3
    have h2' : ¬ s.slot ≤ s.latestBlockHeader.slot := by omega
    have h3' : b.proposerIndex ≠ s.slot % s.numValidators := by rw [← h1]; exact h3
    simp [processBlockHeader, h1, h2', h3']
  · intro h1 h2 h3 h4
    have h2' : ¬ s.slot ≤ s.latestBlockHeader.slot := by omega
    have h3' : b.proposerIndex = s.slot % s.numValidators := by rw [← h1]; exact h3
    simp [processBlockHeader, h1, h2', h3', h4]
  · intro h1 h2 h3 h4
    cases hres : processBlockHeader H s b with
    | ok s' => exact ⟨s', rfl⟩
    | error e =>
      unfold processBlockHeader at hres
      rw [if_neg (by omega), if_neg h2, if_neg (not_not_intro h3),
        if_neg (not_not_intro h4)] at hres
      exact Except.noConfusion hres

/-- C8: `process_slots` fails (with the not-future error) exactly when the
target slot is not beyond the current slot, and on success the returned
state sits exactly at the target; `process_block_header` performs its four
validations in order, each with its own error kind, returning the error of
the first failing check and succeeding exactly when all four hold; the
embedding is a pure function, so the input state is never mutated on
failure. -/
theorem C8_transition_error_contract :
    (∀ H s t, processSlots H s t = Except.error TErr.notFuture ↔ t ≤ s.slot)
    ∧ (∀ H s t e, processSlots H s t = Except.error e → e = TErr.notFuture)
    ∧ (∀ H s t s', processSlots H s t = Except.ok s' → s'.slot = t ∧ s.slot < t)
    ∧ (∀ H s b, processBlockHeader H s b = Except.error TErr.slotMismatch ↔
        b.slot ≠ s.slot)
    ∧ (∀ H s b, processBlockHeader H s b = Except.error TErr.notNewerThanHead ↔
        (b.slot = s.slot ∧ b.slot ≤ s.latestBlockHeader.slot))
    ∧ (∀ H s b, processBlockHeader H s b = Except.error TErr.wrongProposer ↔
        (b.slot = s.slot ∧ s.latestBlockHeader.slot < b.slot ∧
         b.proposerIndex ≠ b.slot % s.numValidators))
    ∧ (∀ H s b, processBlockHeader H s b = Except.error TErr.parentMismatch ↔
        (b.slot = s.slot ∧ s.latestBlockHeader.slot < b.slot ∧
         b.proposerIndex = b.slot % s.numValidators ∧
         b.parentRoot ≠ H.htrHeader s.latestBlockHeader))
    ∧ (∀ H s b, (∃ s', processBlockHeader H s b = Except.ok s') ↔
        (b.slot = s.slot ∧ s.latestBlockHeader.slot < b.slot ∧
         b.proposerIndex = b.slot % s.numValidators ∧
         b.parentRoot = H.htrHeader s.latestBlockHeader)) := by
  have main : ∀ (H : HashModel) (s : State) (b : Block),
      (processBlockHeader H s b = Except.error TErr.slotMismatch ↔ b.slot ≠ s.slot) ∧
      (processBlockHeader H s b = Except.error TErr.notNewerThanHead ↔
        (b.slot = s.slot ∧ b.slot ≤ s.latestBlockHeader.slot)) ∧
      (processBlockHeader H s b = Except.error TErr.wrongProposer ↔
        (b.slot = s.slot ∧ s.latestBlockHeader.slot < b.slot ∧
         b.proposerIndex ≠ b.slot % s.numValidators)) ∧
      (processBlockHeader H s b = Except.error TErr.parentMismatch ↔
        (b.slot = s.slot ∧ s.latestBlockHeader.slot < b.slot ∧
         b.proposerIndex = b.slot % s.numValidators ∧
         b.parentRoot ≠ H.htrHeader s.latestBlockHeader)) ∧
      ((∃ s', processBlockHeader H s b = Except.ok s') ↔
        (b.slot = s.slot ∧ s.latestBlockHeader.slot < b.slot ∧
         b.proposerIndex = b.slot % s.numValidators ∧
         b.parentRoot = H.htrHeader s.latestBlockHeader)) := by
    intro H s b
    obtain ⟨e1, e2, e3, e4, e5⟩ := processBlockHeader_branches H s b
    by_cases h1 : b.slot = s.slot
    · by_cases h2 : b.slot ≤ s.latestBlockHeader.slot
      · have h2' : s.slot ≤ s.latestBlockHeader.slot := by omega
        have hlt' : ¬ s.latestBlockHeader.slot < s.slot := by omega
        rw [e2 h1 h2]
        simp [h1, h2', hlt']
      · have hle' : ¬ s.slot ≤ s.latestBlockHeader.slot := by omega
        have hlt' : s.latestBlockHeader.slot < s.slot := by omega
        by_cases h3 : b.proposerIndex = b.slot % s.numValidators
        · have h3' : b.proposerIndex = s.slot % s.numValidators := by rw [← h1]; exact h3
          by_cases h4 : b.parentRoot = H.htrHeader s.latestBlockHeader
          · obtain ⟨s', hs'⟩ := e5 h1 h2 h3 h4
            rw [hs']
            simp [h1, h3', h4, hle', hlt']
          · rw [e4 h1 h2 h3 h4]
            simp [h1, h3', h4, hle', hlt']
        · have h3' : ¬ b.proposerIndex = s.slot % s.numValidators := by rw [← h1]; exact h3
          rw [e3 h1 h2 h3]
          simp [h1, h3', hle', hlt']
    · rw [e1 h1]
      simp [h1]
  refine ⟨?_, ?_, ?_,
    fun H s b => (main H s b).1, fun H s b => (main H s b).2.1,
    fun H s b => (main H s b).2.2.1, fun H s b => (main H s b).2.2.2.1,
    fun H s b => (main H s b).2.2.2.2⟩
  · intro H s t
    unfold processSlots
    split
    · next h => exact iff_of_true rfl (by omega)
    · next h =>
      constructor
      · intro hc
        exact Except.noConfusion hc
      · intro hc
        omega
  · intro H s t e h
    unfold processSlots at h
    split at h
    · cases h
      rfl
    · exact Except.noConfusion h
  · intro H s t s' h
    unfold processSlots at h
    split at h
    · exact Except.noConfusion h
    · next hge =>
      cases h
      exact ⟨processSlotsGo_slot H t s (by omega), by omega⟩

/-! ## Reachable states and transition invariants (C6, C7) -/

/-- `GenerateGenesis`: slot 0, empty history and bitlists, zero
checkpoints, and a genesis header whose body root is the hash of the
empty body. -/
def genesisState (H : HashModel) (genesisTime numValidators : Nat) : State :=
  { numValidators := numValidators, genesisTime := genesisTime, slot := 0,
    latestBlockHeader :=
      { slot := 0, proposerIndex := 0, parentRoot := 0, stateRoot := 0,
        bodyRoot := H.htrBody [] },
    latestJustified := ⟨0, 0⟩, latestFinalized := ⟨0, 0⟩,
    historicalBlockHashes := [], justifiedSlots := [],
    justificationRoots := [], justificationValidators := [] }

/-- One transition step: a successful `process_slots` or `process_block`,
or a (total) `process_attestations` call. -/
inductive Step (H : HashModel) : State → State → Prop where
  | slots (s : State) (t : Nat) (s' : State) :
      processSlots H s t = Except.ok s' → Step H s s'
  | block (s : State) (b : Block) (s' : State) :
      processBlock H s b = Except.ok s' → Step H s s'
  | atts (s : State) (l : List Attestation) : Step H s (processAttestations s l)

/-- States produced from some genesis by a sequence of transition steps. -/
inductive Reachable (H : HashModel) : State → Prop where
  | genesis (gt n : Nat) : Reachable H (genesisState H gt n)
  | step {s s' : State} : Reachable H s → Step H s s' → Reachable H s'

/-- The inductive invariant of reachable states. -/
structure Inv (s : State) : Prop where
  histLen : s.historicalBlockHashes.length = s.latestBlockHeader.slot
  headerLe : s.latestBlockHeader.slot ≤ s.slot
  bitsLen : s.justifiedSlots.length ≤ s.historicalBlockHashes.length
  finLeJust : s.latestFinalized.slot ≤ s.latestJustified.slot
  justLeHeader : s.latestJustified.slot ≤ s.latestBlockHeader.slot
  finBit : s.latestFinalized.slot = 0 ∨ getBit s.justifiedSlots s.latestFinalized.slot = true

theorem isJustifiableAfter_self (x : Nat) : isJustifiableAfter x x = true := by
  unfold isJustifiableAfter
  simp

theorem setJustifications_proj (s : State) (j : Justifications) :
    (setJustifications s j).numValidators = s.numValidators ∧
    (setJustifications s j).slot = s.slot ∧
    (setJustifications s j).latestBlockHeader = s.latestBlockHeader ∧
    (setJustifications s j).latestJustified = s.latestJustified ∧
    (setJustifications s j).latestFinalized = s.latestFinalized ∧
    (setJustifications s j).historicalBlockHashes = s.historicalBlockHashes ∧
    (setJustifications s j).justifiedSlots = s.justifiedSlots := by
  unfold setJustifications
  split <;> exact ⟨rfl, rfl, rfl, rfl, rfl, rfl, rfl⟩

theorem inv_setJustifications (s : State) (j : Justifications) (h : Inv s) :
    Inv (setJustifications s j) := by
  obtain ⟨p1, p2, p3, p4, p5, p6, p7⟩ := setJustifications_proj s j
  exact ⟨by rw [p6, p3]; exact h.histLen, by rw [p3, p2]; exact h.headerLe,
    by rw [p7, p6]; exact h.bitsLen, by rw [p5, p4]; exact h.finLeJust,
    by rw [p4, p3]; exact h.justLeHeader, by rw [p5, p7]; exact h.finBit⟩

theorem getBit_setBit_true_of_true (bits : List Bool) (i k : Nat)
    (h : getBit bits k = true) : getBit (setBit bits i true) k = true := by
  by_cases hik : i = k
  · subst hik
    exact getBit_setBit_self bits i true
  · rw [getBit_setBit_ne bits i k true hik]
    exact h

/-- The loop body preserves the invariant and never lowers the finalized
slot. -/
theorem attStep_inv (acc : State × Justifications) (a : Attestation) (hI : Inv acc.1) :
    Inv (attStep acc a).1 ∧
    acc.1.latestFinalized.slot ≤ (attStep acc a).1.latestFinalized.slot := by
  obtain ⟨st, j⟩ := acc
  replace hI : Inv st := hI
  simp only [attStep]
  split
  · exact ⟨hI, Nat.le_refl _⟩
  next h1n =>
  split
  · exact ⟨hI, Nat.le_refl _⟩
  next h2 =>
  split
  · exact ⟨hI, Nat.le_refl _⟩
  next h3n =>
  split
  · exact ⟨hI, Nat.le_refl _⟩
  next h4n =>
  split
  · exact ⟨hI, Nat.le_refl _⟩
  next h5n =>
  split
  · exact ⟨hI, Nat.le_refl _⟩
  next h6n =>
  have h1 : getBit st.justifiedSlots a.source.slot = true := by
    by_contra hc
    exact h1n hc
  have h2' : ¬ getBit st.justifiedSlots a.target.slot = true := h2
  have h4 : a.target.slot < st.historicalBlockHashes.length ∧
      a.target.root = st.historicalBlockHashes.getD a.target.slot 0 := by
    by_contra hc
    exact h4n hc
  obtain ⟨h4len, h4root⟩ := h4
  have h5 : a.source.slot < a.target.slot := by omega
  have h6 : isJustifiableAfter a.target.slot st.latestFinalized.slot = true := by
    by_contra hc
    exact h6n hc
  have hFleT : st.latestFinalized.slot ≤ a.target.slot :=
    ((isJustifiableAfter_iff _ _).mp h6).1
  dsimp only
  split
  · next hth =>
    split
    · next hcf =>
      have hfinle : st.latestFinalized.slot ≤ a.source.slot := by
        by_contra hc
        push_neg at hc
        rcases Nat.lt_or_ge st.latestFinalized.slot a.target.slot with hFt | hFt
        · have hmem : st.latestFinalized.slot ∈
              List.range' (a.source.slot + 1) (a.target.slot - (a.source.slot + 1)) := by
            rw [List.mem_range'_1]
            omega
          have := (List.all_eq_true.mp hcf) _ hmem
          simp only [decide_eq_true_eq] at this
          exact this (isJustifiableAfter_self _)
        · have hFt' : st.latestFinalized.slot = a.target.slot := by omega
          rcases hI.finBit with hz | hb
          · omega
          · rw [hFt'] at hb
            exact h2' hb
      refine ⟨⟨hI.histLen, hI.headerLe, ?_, ?_, ?_, ?_⟩, hfinle⟩
      · show (setBit st.justifiedSlots a.target.slot true).length ≤
          st.historicalBlockHashes.length
        rw [setBit_length]
        have := hI.bitsLen
        omega
      · exact Nat.le_of_lt h5
      · show a.target.slot ≤ st.latestBlockHeader.slot
        have := hI.histLen
        omega
      · right
        exact getBit_setBit_true_of_true _ _ _ h1
    · next hcf =>
      refine ⟨⟨hI.histLen, hI.headerLe, ?_, hFleT, ?_, ?_⟩, Nat.le_refl _⟩
      · show (setBit st.justifiedSlots a.target.slot true).length ≤
          st.historicalBlockHashes.length
        rw [setBit_length]
        have := hI.bitsLen
        omega
      · show a.target.slot ≤ st.latestBlockHeader.slot
        have := hI.histLen
        omega
      · rcases hI.finBit with hz | hb
        · exact Or.inl hz
        · exact Or.inr (getBit_setBit_true_of_true _ _ _ hb)
  · next hth => exact ⟨hI, Nat.le_refl _⟩

theorem foldl_attStep_inv (l : List Attestation) :
    ∀ acc : State × Justifications, Inv acc.1 →
      Inv (l.foldl attStep acc).1 ∧
      acc.1.latestFinalized.slot ≤ (l.foldl attStep acc).1.latestFinalized.slot := by
  induction l with
  | nil => exact fun acc h => ⟨h, Nat.le_refl _⟩
  | cons a rest ih =>
    intro acc h
    have h1 := attStep_inv acc a h
    have h2 := ih (attStep acc a) h1.1
    exact ⟨h2.1, Nat.le_trans h1.2 h2.2⟩

theorem processAttestations_inv (s : State) (l : List Attestation) (h : Inv s) :
    Inv (processAttestations s l) ∧
    s.latestFinalized.slot ≤ (processAttestations s l).latestFinalized.slot := by
  unfold processAttestations
  have hf := foldl_attStep_inv l (s, getJustifications s) h
  refine ⟨inv_setJustifications _ _ hf.1, ?_⟩
  have := (setJustifications_proj (l.foldl attStep (s, getJustifications s)).1
    (l.foldl attStep (s, getJustifications s)).2).2.2.2.2.1
  rw [this]
  exact hf.2

theorem processSlot_proj (H : HashModel) (s : State) :
    (processSlot H s).numValidators = s.numValidators ∧
    (processSlot H s).slot = s.slot ∧
    (processSlot H s).latestBlockHeader.slot = s.latestBlockHeader.slot ∧
    (processSlot H s).latestJustified = s.latestJustified ∧
    (processSlot H s).latestFinalized = s.latestFinalized ∧
    (processSlot H s).historicalBlockHashes = s.historicalBlockHashes ∧
    (processSlot H s).justifiedSlots = s.justifiedSlots := by
  unfold processSlot
  split <;> exact ⟨rfl, rfl, rfl, rfl, rfl, rfl, rfl⟩

theorem processSlotsLoop_proj (H : HashModel) (target : Nat) (fuel : Nat) :
    ∀ s : State,
      (processSlotsLoop H target fuel s).latestBlockHeader.slot = s.latestBlockHeader.slot ∧
      (processSlotsLoop H target fuel s).latestJustified = s.latestJustified ∧
      (processSlotsLoop H target fuel s).latestFinalized = s.latestFinalized ∧
      (processSlotsLoop H target fuel s).historicalBlockHashes = s.historicalBlockHashes ∧
      (processSlotsLoop H target fuel s).justifiedSlots = s.justifiedSlots ∧
      s.slot ≤ (processSlotsLoop H target fuel s).slot := by
  induction fuel with
  | zero => exact fun s => ⟨rfl, rfl, rfl, rfl, rfl, Nat.le_refl _⟩
  | succ fuel ih =>
    intro s
    unfold processSlotsLoop
    split
    · next hlt =>
      obtain ⟨q1, q2, q3, q4, q5, q6⟩ := ih { processSlot H s with slot := s.slot + 1 }
      obtain ⟨p1, p2, p3, p4, p5, p6, p7⟩ := processSlot_proj H s
      refine ⟨by rw [q1]; exact p3, by rw [q2]; exact p4, by rw [q3]; exact p5,
        by rw [q4]; exact p6, by rw [q5]; exact p7, ?_⟩
      have : ({ processSlot H s with slot := s.slot + 1 } : State).slot = s.slot + 1 := rfl
      omega
    · exact ⟨rfl, rfl, rfl, rfl, rfl, Nat.le_refl _⟩

theorem processSlotsGo_proj (H : HashModel) (target : Nat) (s : State) :
    (processSlotsGo H target s).latestBlockHeader.slot = s.latestBlockHeader.slot ∧
    (processSlotsGo H target s).latestJustified = s.latestJustified ∧
    (processSlotsGo H target s).latestFinalized = s.latestFinalized ∧
    (processSlotsGo H target s).historicalBlockHashes = s.historicalBlockHashes ∧
    (processSlotsGo H target s).justifiedSlots = s.justifiedSlots ∧
    s.slot ≤ (processSlotsGo H target s).slot :=
  processSlotsLoop_proj H target (target - s.slot) s

theorem processSlots_inv (H : HashModel) (s : State) (t : Nat) (s' : State)
    (h : processSlots H s t = Except.ok s') (hI : Inv s) :
    Inv s' ∧ s.latestFinalized.slot ≤ s'.latestFinalized.slot ∧
    s.latestJustified.slot ≤ s'.latestJustified.slot := by
  unfold processSlots at h
  split at h
  · exact Except.noConfusion h
  · cases h
    obtain ⟨q1, q2, q3, q4, q5, q6⟩ := processSlotsGo_proj H t s
    refine ⟨⟨?_, ?_, ?_, ?_, ?_, ?_⟩, ?_, ?_⟩
    · rw [q4, q1]
      exact hI.histLen
    · rw [q1]
      exact Nat.le_trans hI.headerLe q6
    · rw [q5, q4]
      exact hI.bitsLen
    · rw [q3, q2]
      exact hI.finLeJust
    · rw [q2, q1]
      exact hI.justLeHeader
    · rw [q3, q5]
      exact hI.finBit
    · rw [q3]
    · rw [q2]

theorem foldl_appendBit_length (l : List Nat) :
    ∀ (bits : List Bool) (bound : Nat), bits.length ≤ bound → (∀ i ∈ l, i < bound) →
      ((l.foldl (fun bs i => appendBitAt bs i false) bits).length ≤ bound) := by
  induction l with
  | nil => exact fun bits bound h _ => h
  | cons i rest ih =>
    intro bits bound h hb
    refine ih _ bound ?_ (fun x hx => hb x (List.mem_cons_of_mem i hx))
    unfold appendBitAt
    rw [setBit_length]
    have := hb i (List.mem_cons_self i rest)
    omega

theorem foldl_appendBit_getBit (l : List Nat) :
    ∀ (bits : List Bool) (k : Nat), (∀ i ∈ l, i ≠ k) →
      getBit (l.foldl (fun bs i => appendBitAt bs i false) bits) k = getBit bits k := by
  induction l with
  | nil => exact fun bits k _ => rfl
  | cons i rest ih =>
    intro bits k h
    rw [List.foldl_cons, ih _ k (fun x hx => h x (List.mem_cons_of_mem i hx))]
    exact getBit_setBit_ne bits i k false (h i (List.mem_cons_self i rest))

theorem getBit_true_lt_length (bits : List Bool) (k : Nat) (h : getBit bits k = true) :
    k < bits.length := by
  by_contra hc
  push_neg at hc
  rw [getBit, List.getD_eq_default _ _ hc] at h
  cases h

/-- Inversion of a successful `processBlockHeader`: the validation facts,
the shape of the produced state, and preservation of the invariant. -/
theorem processBlockHeader_ok_inv (H : HashModel) (s : State) (b : Block) (s' : State)
    (h : processBlockHeader H s b = Except.ok s') (hI : Inv s) :
    Inv s' ∧ s'.latestFinalized.slot = s.latestFinalized.slot ∧
    s'.latestJustified.slot = s.latestJustified.slot ∧
    b.slot = s.slot ∧ s.latestBlockHeader.slot < b.slot ∧
    b.parentRoot = H.htrHeader s.latestBlockHeader ∧
    s'.slot = s.slot ∧ s'.latestBlockHeader.slot = b.slot ∧
    s'.historicalBlockHashes =
      ((markGenesisJustified s b.parentRoot).historicalBlockHashes ++ [b.parentRoot]) ++
        List.replicate (b.slot - s.latestBlockHeader.slot - 1) 0 := by
  unfold processBlockHeader at h
  split at h
  · exact Except.noConfusion h
  next c1 =>
  split at h
  · exact Except.noConfusion h
  next c2 =>
  split at h
  · exact Except.noConfusion h
  next c3 =>
  split at h
  · exact Except.noConfusion h
  next c4 =>
  have h1 : b.slot = s.slot := by omega
  have h2 : s.latestBlockHeader.slot < b.slot := by omega
  have h4 : b.parentRoot = H.htrHeader s.latestBlockHeader := by
    by_contra hc
    exact c4 hc
  obtain ⟨m1, m2, m3, m4, m5, m6, m7⟩ := markGenesisJustified_proj s b.parentRoot
  cases h
  have hhist : (((markGenesisJustified s b.parentRoot).historicalBlockHashes ++ [b.parentRoot]) ++
      List.replicate (b.slot - s.latestBlockHeader.slot - 1) 0).length = b.slot := by
    rw [m6]
    simp only [List.length_append, List.length_replicate, List.length_cons, List.length_nil]
    have := hI.histLen
    omega
  refine ⟨⟨hhist, ?_, ?_, ?_, ?_, ?_⟩, m5, m4, h1, h2, h4, m2, rfl, rfl⟩
  · show b.slot ≤ (markGenesisJustified s b.parentRoot).slot
    rw [m2]
    omega
  · rw [hhist]
    refine foldl_appendBit_length _ _ b.slot ?_ ?_
    · unfold appendBitAt
      rw [setBit_length, m7]
      have := hI.bitsLen
      have := hI.histLen
      omega
    · intro i hi
      rw [List.mem_range'_1] at hi
      omega
  · show (markGenesisJustified s b.parentRoot).latestFinalized.slot ≤
      (markGenesisJustified s b.parentRoot).latestJustified.slot
    rw [m5, m4]
    exact hI.finLeJust
  · show (markGenesisJustified s b.parentRoot).latestJustified.slot ≤ b.slot
    rw [m4]
    have := hI.justLeHeader
    omega
  · show (markGenesisJustified s b.parentRoot).latestFinalized.slot = 0 ∨ _
    rw [m5]
    rcases hI.finBit with hz | hb
    · exact Or.inl hz
    · right
      have hfl : s.latestFinalized.slot < s.justifiedSlots.length :=
        getBit_true_lt_length _ _ hb
      have hfp : s.latestFinalized.slot < s.latestBlockHeader.slot := by
        have := hI.bitsLen
        have := hI.histLen
        omega
      rw [foldl_appendBit_getBit]
      · unfold appendBitAt
        rw [m7, getBit_setBit_ne _ _ _ _ (by omega)]
        exact hb
      · intro i hi
        rw [List.mem_range'_1] at hi
        omega

/-- Witness for `C8_transition_error_contract`: each characterization
applied at a concrete instance (state at slot 0, target 1; a header-slot
mismatch block). -/
theorem C8_transition_error_contract_witness :
    (processSlots ⟨fun _ => 0, fun _ => 0, fun _ => 0, fun _ => 0⟩ c1State 3 =
        Except.error TErr.notFuture ↔ 3 ≤ c1State.slot) ∧
    (processBlockHeader ⟨fun _ => 0, fun _ => 0, fun _ => 0, fun _ => 0⟩ c1State
        ⟨5, 0, 0, 0, []⟩ = Except.error TErr.slotMismatch ↔ ¬ (5 = c1State.slot)) :=
  ⟨C8_transition_error_contract.1 ⟨fun _ => 0, fun _ => 0, fun _ => 0, fun _ => 0⟩ c1State 3,
   C8_transition_error_contract.2.2.2.1 ⟨fun _ => 0, fun _ => 0, fun _ => 0, fun _ => 0⟩
     c1State ⟨5, 0, 0, 0, []⟩⟩

/-- Witness for `C2_finalization_on_unjustifiable_gap` at the concrete
gap attestation against the gap seed state. -/
theorem C2_finalization_on_unjustifiable_gap_witness :
    ValidAtt c2GapState c2GapAtt ∧
    3 * countVotes
        ((lookupJ (trackVote (getJustifications c2GapState) c2GapAtt.target.root
            c2GapAtt.validatorID c2GapState.numValidators) c2GapAtt.target.root).getD [])
      ≥ 2 * c2GapState.numValidators ∧
    ((∀ s, c2GapAtt.source.slot < s → s < c2GapAtt.target.slot →
        isJustifiableAfter s c2GapState.latestFinalized.slot = false) →
      (attStep (c2GapState, getJustifications c2GapState) c2GapAtt).1.latestFinalized
        = c2GapAtt.source) :=
  ⟨by decide, by decide,
   (C2_finalization_on_unjustifiable_gap.1 c2GapState (getJustifications c2GapState)
     c2GapAtt (by decide) (by decide)).1⟩

/-! ## LMD-GHOST head selection (`GetHead`, `forkchoice` package) -/

/-- The fork-choice store's block map, as an association list keyed by
block root (Go map iteration order never influences the results proved
here: weights are per-root, and the chosen child is a strict maximum). -/
abbrev BlockMap := List (Root × Block)

/-- Go map lookup on the block map. -/
def lookupB (m : BlockMap) (r : Root) : Option Block :=
  match m with
  | [] => none
  | p :: t => if p.1 = r then some p.2 else lookupB t r

/-- `blocks[r].Slot`, with the Go zero value (slot 0) for a missing key. -/
def blockSlot (m : BlockMap) (r : Root) : Nat :=
  ((lookupB m r).map (·.slot)).getD 0

/-- `blocks[r].ParentRoot`, the zero root for a missing key. -/
def parentOf (m : BlockMap) (r : Root) : Root :=
  ((lookupB m r).map (·.parentRoot)).getD 0

/-- Start-root selection when the given root is zero: the block with the
minimum slot (`minSlot` starts at `^Slot(0) = 2^64-1`). -/
def startRoot (m : BlockMap) : Root :=
  (m.foldl (fun acc p => if p.2.slot < acc.2 then (p.1, p.2.slot) else acc)
    ((0 : Root), 2 ^ 64 - 1)).1

/-- The ancestor walk of the weight computation: climb parent links from
the vote target while the block's slot exceeds the start root's slot,
incrementing each visited root's weight.  A missing key reads slot 0 and
ends the walk, exactly as the Go zero value does; the fuel (one unit per
stored block suffices, since slots strictly decrease along parent links
of validated chains) models the loop's termination. -/
def walkUp (m : BlockMap) (rootSlot : Nat) (w : Root → Nat) (r : Root) :
    Nat → (Root → Nat)
  | 0 => w
  | fuel + 1 =>
    if rootSlot < blockSlot m r then
      walkUp m rootSlot (fun x => if x = r then w x + 1 else w x) (parentOf m r) fuel
    else w

/-- Vote weights: each non-zero vote whose target exists in the map walks
its ancestry up to (not through) the start root. -/
def computeWeights (m : BlockMap) (rootSlot : Nat) (votes : List Checkpoint) :
    Root → Nat :=
  votes.foldl
    (fun w v =>
      if v.root = 0 then w
      else if (lookupB m v.root).isNone then w
      else walkUp m rootSlot w v.root (m.length + 1))
    (fun _ => 0)

/-- The children of `parent` admitted by the weight floor: blocks with
this (non-zero) parent root, kept when `minScore` is 0 or their weight
reaches it. -/
def childrenOf (m : BlockMap) (w : Root → Nat) (minScore : Nat) (parent : Root) :
    List Root :=
  (m.filter fun p =>
    ¬ p.2.parentRoot = 0 ∧ (minScore = 0 ∨ w p.1 ≥ minScore) ∧
      p.2.parentRoot = parent).map (·.1)

/-- The walk's per-child comparison: strictly better on higher weight,
then higher slot, then lexicographically greater root. -/
def betterChild (m : BlockMap) (w : Root → Nat) (best child : Root) : Bool :=
  decide (w best < w child) ||
  (decide (w child = w best) && decide (blockSlot m best < blockSlot m child)) ||
  (decide (w child = w best) && decide (blockSlot m child = blockSlot m best) &&
    decide (best < child))

/-- Best child of a children list: the fold of the comparison over the
list, starting from its first element (`0` for an empty list, which the
walk never queries). -/
def bestChild (m : BlockMap) (w : Root → Nat) : List Root → Root
  | [] => 0
  | c :: cs => cs.foldl (fun best x => if betterChild m w best x then x else best) c

/-- The downward walk: descend to the best admitted child until a leaf.
The fuel (one unit per stored block) models termination of the loop. -/
def walkDown (m : BlockMap) (w : Root → Nat) (minScore : Nat) :
    Root → Nat → Root
  | cur, 0 => cur
  | cur, fuel + 1 =>
    let ch := childrenOf m w minScore cur
    if ch.isEmpty then cur
    else walkDown m w minScore (bestChild m w ch) fuel

/-- `GetHead` of the `forkchoice` package (the `[]Checkpoint` vote-list
version the store uses). -/
def getHead (m : BlockMap) (root : Root) (votes : List Checkpoint)
    (minScore : Nat) : Root :=
  let root := if root = 0 then startRoot m else root
  let rootSlot := blockSlot m root
  let w := computeWeights m rootSlot votes
  walkDown m w minScore root (m.length + 1)

/-- The strict (weight, slot, root) ordering the walk maximises. -/
def ChildLt (m : BlockMap) (w : Root → Nat) (x y : Root) : Prop :=
  w x < w y ∨ (w x = w y ∧ blockSlot m x < blockSlot m y) ∨
  (w x = w y ∧ blockSlot m x = blockSlot m y ∧ x < y)

theorem betterChild_iff (m : BlockMap) (w : Root → Nat) (best child : Root) :
    betterChild m w best child = true ↔ ChildLt m w best child := by
  unfold betterChild ChildLt
  simp only [Bool.or_eq_true, Bool.and_eq_true, decide_eq_true_eq]
  constructor
  · rintro ((h | ⟨h1, h2⟩) | ⟨⟨h1, h2⟩, h3⟩)
    · exact Or.inl h
    · exact Or.inr (Or.inl ⟨h1.symm, h2⟩)
    · exact Or.inr (Or.inr ⟨h1.symm, h2.symm, h3⟩)
  · rintro (h | ⟨h1, h2⟩ | ⟨h1, h2, h3⟩)
    · exact Or.inl (Or.inl h)
    · exact Or.inl (Or.inr ⟨h1.symm, h2⟩)
    · exact Or.inr ⟨⟨h1.symm, h2.symm⟩, h3⟩

theorem childLt_trans (m : BlockMap) (w : Root → Nat) (x y z : Root)
    (h1 : ChildLt m w x y) (h2 : ChildLt m w y z) : ChildLt m w x z := by
  unfold ChildLt at h1 h2 ⊢
  rcases h1 with h1 | ⟨e1, s1⟩ | ⟨e1, f1, r1⟩
  · rcases h2 with h2 | ⟨e2, s2⟩ | ⟨e2, f2, r2⟩
    · exact Or.inl (h1.trans h2)
    · exact Or.inl (h1.trans_eq e2)
    · exact Or.inl (h1.trans_eq e2)
  · rcases h2 with h2 | ⟨e2, s2⟩ | ⟨e2, f2, r2⟩
    · exact Or.inl (e1.trans_lt h2)
    · exact Or.inr (Or.inl ⟨e1.trans e2, s1.trans s2⟩)
    · exact Or.inr (Or.inl ⟨e1.trans e2, s1.trans_eq f2⟩)
  · rcases h2 with h2 | ⟨e2, s2⟩ | ⟨e2, f2, r2⟩
    · exact Or.inl (e1.trans_lt h2)
    · exact Or.inr (Or.inl ⟨e1.trans e2, f1.trans_lt s2⟩)
    · exact Or.inr (Or.inr ⟨e1.trans e2, f1.trans f2, r1.trans r2⟩)

theorem childLt_total (m : BlockMap) (w : Root → Nat) (x y : Root) (h : x ≠ y) :
    ChildLt m w x y ∨ ChildLt m w y x := by
  unfold ChildLt
  rcases Nat.lt_trichotomy (w x) (w y) with hw | hw | hw
  · exact Or.inl (Or.inl hw)
  · rcases Nat.lt_trichotomy (blockSlot m x) (blockSlot m y) with hs | hs | hs
    · exact Or.inl (Or.inr (Or.inl ⟨hw, hs⟩))
    · rcases Nat.lt_trichotomy x y with hr | hr | hr
      · exact Or.inl (Or.inr (Or.inr ⟨hw, hs, hr⟩))
      · exact absurd hr h
      · exact Or.inr (Or.inr (Or.inr ⟨hw.symm, hs.symm, hr⟩))
    · exact Or.inr (Or.inr (Or.inl ⟨hw.symm, hs⟩))
  · exact Or.inr (Or.inl hw)

theorem foldBest_spec (m : BlockMap) (w : Root → Nat) (cs : List Root) :
    ∀ (best : Root) (seen : List Root), best ∈ seen →
      (∀ x ∈ seen, x ≠ best → ChildLt m w x best) →
      (cs.foldl (fun best x => if betterChild m w best x then x else best) best) ∈
          seen ++ cs ∧
        ∀ x ∈ seen ++ cs,
          x ≠ cs.foldl (fun best x => if betterChild m w best x then x else best) best →
          ChildLt m w x
            (cs.foldl (fun best x => if betterChild m w best x then x else best) best) := by
  induction cs with
  | nil =>
    intro best seen hmem hdom
    simpa using ⟨hmem, hdom⟩
  | cons e cs ih =>
    intro best seen hmem hdom
    rw [List.foldl_cons]
    have hassoc : seen ++ e :: cs = (seen ++ [e]) ++ cs := by simp
    rw [hassoc]
    by_cases hbe : betterChild m w best e = true
    · rw [if_pos hbe]
      have hlt : ChildLt m w best e := (betterChild_iff m w best e).mp hbe
      refine ih e (seen ++ [e]) (by simp) ?_
      intro x hx hxe
      rcases List.mem_append.mp hx with hx1 | hx1
      · by_cases hxb : x = best
        · exact hxb ▸ hlt
        · exact childLt_trans m w x best e (hdom x hx1 hxb) hlt
      · simp at hx1
        exact absurd hx1 hxe
    · rw [if_neg hbe]
      have hnlt : ¬ ChildLt m w best e := fun hc => hbe ((betterChild_iff m w best e).mpr hc)
      refine ih best (seen ++ [e]) (by simp [hmem]) ?_
      intro x hx hxb
      rcases List.mem_append.mp hx with hx1 | hx1
      · exact hdom x hx1 hxb
      · simp at hx1
        subst hx1
        rcases childLt_total m w x best hxb with hgood | hbad
        · exact hgood
        · exact absurd hbad hnlt

/-- The chosen child of a non-empty children list is a member and strictly
dominates every other entry in the (weight, slot, root) order. -/
theorem bestChild_spec (m : BlockMap) (w : Root → Nat) (c : Root) (cs : List Root) :
    bestChild m w (c :: cs) ∈ c :: cs ∧
    ∀ x ∈ c :: cs, x ≠ bestChild m w (c :: cs) →
      ChildLt m w x (bestChild m w (c :: cs)) := by
  have h := foldBest_spec m w cs c [c] (by simp) (by simp)
  simpa using h

/-- The C5 example: a parent (root 1, slot 0) with two children of equal
weight (one vote each) and equal slot; roots 5 and 9. -/
def c5Blocks : BlockMap :=
  [(1, { slot := 0, proposerIndex := 0, parentRoot := 0, stateRoot := 0, attestations := [] }),
   (5, { slot := 1, proposerIndex := 0, parentRoot := 1, stateRoot := 0, attestations := [] }),
   (9, { slot := 1, proposerIndex := 0, parentRoot := 1, stateRoot := 0, attestations := [] })]

def c5Votes : List Checkpoint := [⟨5, 1⟩, ⟨9, 1⟩]

/-- C5: at every step of the downward walk the chosen child is the strict
maximum of the admitted children under (vote weight, block slot, block
root); the walk descends to exactly that child whenever children exist;
and concretely, for two children of the same parent with equal weights
and equal slots, head selection picks the lexicographically larger root. -/
theorem C5_lmd_ghost_tie_break :
    (∀ m w c cs, bestChild m w (c :: cs) ∈ c :: cs ∧
      ∀ x ∈ c :: cs, x ≠ bestChild m w (c :: cs) →
        ChildLt m w x (bestChild m w (c :: cs)))
    ∧ (∀ m w minScore cur fuel c cs, childrenOf m w minScore cur = c :: cs →
        walkDown m w minScore cur (fuel + 1) =
          walkDown m w minScore (bestChild m w (c :: cs)) fuel)
    ∧ computeWeights c5Blocks 0 c5Votes 5 = computeWeights c5Blocks 0 c5Votes 9
    ∧ blockSlot c5Blocks 5 = blockSlot c5Blocks 9
    ∧ getHead c5Blocks 1 c5Votes 0 = 9 := by
  refine ⟨bestChild_spec, ?_, by decide, by decide, by decide⟩
  intro m w minScore cur fuel c cs hch
  show (let ch := childrenOf m w minScore cur
        if ch.isEmpty then cur else walkDown m w minScore (bestChild m w ch) fuel) = _
  rw [hch]
  rfl

/-- Witness for `C5_lmd_ghost_tie_break` at the concrete example: child 5
is dominated by the chosen child 9, and the first walk step from the
parent goes to 9. -/
theorem C5_lmd_ghost_tie_break_witness :
    ChildLt c5Blocks (computeWeights c5Blocks 0 c5Votes) 5
      (bestChild c5Blocks (computeWeights c5Blocks 0 c5Votes) [5, 9]) ∧
    walkDown c5Blocks (computeWeights c5Blocks 0 c5Votes) 0 1 3 =
      walkDown c5Blocks (computeWeights c5Blocks 0 c5Votes)
        0 (bestChild c5Blocks (computeWeights c5Blocks 0 c5Votes) [5, 9]) 2 :=
  ⟨(C5_lmd_ghost_tie_break.1 c5Blocks (computeWeights c5Blocks 0 c5Votes) 5 [9]).2
     5 (by decide) (by decide),
   C5_lmd_ghost_tie_break.2.1 c5Blocks (computeWeights c5Blocks 0 c5Votes) 0 1 2 5 [9]
     (by decide)⟩

/-! ## The fork-choice store (`forkchoice/store.go`, `forkchoice/votes.go`) -/

/-- The store fields read and written by `ProcessBlock` and the vote
bookkeeping (`forkchoice.Store`; the mutex, clock and injected function
pointers carry no state of their own). -/
structure Store where
  time : Nat
  head : Root
  safeTarget : Root
  latestJustified : Checkpoint
  latestFinalized : Checkpoint
  blocks : BlockMap
  states : List (Root × State)
  latestKnownVotes : List Checkpoint
  latestNewVotes : List Checkpoint
deriving DecidableEq, Repr

/-- Go map lookup on the store's states map. -/
def lookupS (m : List (Root × State)) (r : Root) : Option State :=
  match m with
  | [] => none
  | p :: t => if p.1 = r then some p.2 else lookupS t r

/-- The gossip-validation error kinds of `validateAttestationLocked`. -/
inductive VErr where
  | validatorOutOfRange
  | headNotFound
  | targetNotFound
  | sourceNotFound
  | slotMismatch
  | futureVote
deriving DecidableEq, Repr

/-- `validateAttestationLocked`: the gossip-path validation checks, in
order (`some e` is the first error, `none` is acceptance).  The wall
clock's `CurrentSlot()` is passed in as `currentSlot`. -/
def validateAttestation (s : Store) (currentSlot : Nat) (a : Attestation) :
    Option VErr :=
  if a.validatorID ≥ s.latestKnownVotes.length then some .validatorOutOfRange
  else if (lookupB s.blocks a.head.root).isNone then some .headNotFound
  else
    match lookupB s.blocks a.target.root with
    | none => some .targetNotFound
    | some targetBlock =>
      let sourceCheck : Except VErr Nat :=
        if a.source.root = 0 then
          if a.source.slot ≠ 0 then .error .slotMismatch else .ok 0
        else
          match lookupB s.blocks a.source.root with
          | none => .error .sourceNotFound
          | some sourceBlock =>
            if sourceBlock.slot ≠ a.source.slot then .error .slotMismatch
            else .ok sourceBlock.slot
      match sourceCheck with
      | .error e => some e
      | .ok sourceSlot =>
        if sourceSlot > targetBlock.slot then some .slotMismatch
        else if a.source.slot > a.target.slot then some .slotMismatch
        else if targetBlock.slot ≠ a.target.slot then some .slotMismatch
        else if a.slot > currentSlot + 1 then some .futureVote
        else none

/-- `processAttestationLocked`: record an attestation's target vote.  An
out-of-range validator index returns the store untouched (the defensive
guard); block attestations update `latestKnownVotes` (and clear a stale
pending new vote), gossip attestations update `latestNewVotes`. -/
def processAttestationLocked (s : Store) (a : Attestation) (isFromBlock : Bool) :
    Store :=
  let idx := a.validatorID
  if idx ≥ s.latestKnownVotes.length then s
  else if isFromBlock then
    let known := s.latestKnownVotes.getD idx Checkpoint.zero
    let s1 :=
      if known.root = 0 ∨ known.slot < a.slot then
        { s with latestKnownVotes := s.latestKnownVotes.set idx a.target }
      else s
    let newVote := s1.latestNewVotes.getD idx Checkpoint.zero
    if newVote.root ≠ 0 ∧ newVote.slot ≤ a.target.slot then
      { s1 with latestNewVotes := s1.latestNewVotes.set idx Checkpoint.zero }
    else s1
  else
    let newVote := s.latestNewVotes.getD idx Checkpoint.zero
    if newVote.root = 0 ∨ newVote.slot < a.target.slot then
      { s with latestNewVotes := s.latestNewVotes.set idx a.target }
    else s

/-- `GetLatestJustified` over the states map: the latest-justified
checkpoint of maximal slot (ties keep the first encountered entry; only
the maximal slot matters to the store's use of it). -/
def getLatestJustified (states : List (Root × State)) : Option Checkpoint :=
  states.foldl
    (fun acc p =>
      match acc with
      | none => some p.2.latestJustified
      | some cp =>
        if p.2.latestJustified.slot > cp.slot then some p.2.latestJustified
        else some cp)
    none

/-- `updateHeadLocked`: adopt the best justified checkpoint whose block is
stored, recompute the head by `GetHead` over the known votes with no
weight floor, and adopt the head state's finalized checkpoint when its
block is stored. -/
def updateHead (s : Store) : Store :=
  let s1 :=
    match getLatestJustified s.states with
    | some latest =>
      if (lookupB s.blocks latest.root).isSome then
        { s with latestJustified := latest }
      else s
    | none => s
  let s2 := { s1 with head := getHead s1.blocks s1.latestJustified.root s1.latestKnownVotes 0 }
  match lookupS s2.states s2.head with
  | some st =>
    if (lookupB s2.blocks st.latestFinalized.root).isSome then
      { s2 with latestFinalized := st.latestFinalized }
    else s2
  | none => s2

/-- `Store.ProcessBlock`: skip known blocks, require the parent state,
run the injected `processSlots` then `processBlock` transition, check
the declared state root, store the block and post-state, feed the body's
attestations through `processAttestationLocked` with `isFromBlock`,
and recompute the head. -/
def storeProcessBlock (H : HashModel) (s : Store) (b : Block) :
    Except TErr Store :=
  let blockHash := H.htrBlock b
  if (lookupB s.blocks blockHash).isSome then .ok s
  else
    match lookupS s.states b.parentRoot with
    | none => .error .parentNotFound
    | some parentState =>
      match processSlots H parentState b.slot with
      | .error e => .error e
      | .ok st1 =>
        match processBlock H st1 b with
        | .error e => .error e
        | .ok newState =>
          if b.stateRoot ≠ H.htrState newState then .error .badStateRoot
          else
            let s1 := { s with
              blocks := (blockHash, b) :: s.blocks
              states := (blockHash, newState) :: s.states }
            let s2 := b.attestations.foldl
              (fun st a => processAttestationLocked st a true) s1
            .ok (updateHead s2)

/-- `Store.ProcessBlock` with the transition-stage panic explicit: the
injected `consensus.ProcessBlock` runs on the body attestations before
the store's vote bookkeeping, so a panic there (`none`) crashes
`ProcessBlock` before `processAttestationLocked`'s defensive guard is
ever reached. -/
def storeProcessBlockP (H : HashModel) (s : Store) (b : Block) :
    Option (Except TErr Store) :=
  let blockHash := H.htrBlock b
  if (lookupB s.blocks blockHash).isSome then some (.ok s)
  else
    match lookupS s.states b.parentRoot with
    | none => some (.error .parentNotFound)
    | some parentState =>
      match processSlots H parentState b.slot with
      | .error e => some (.error e)
      | .ok st1 =>
        match processBlockP H st1 b with
        | none => none
        | some (.error e) => some (.error e)
        | some (.ok newState) =>
          if b.stateRoot ≠ H.htrState newState then some (.error .badStateRoot)
          else
            let s1 := { s with
              blocks := (blockHash, b) :: s.blocks
              states := (blockHash, newState) :: s.states }
            let s2 := b.attestations.foldl
              (fun st a => processAttestationLocked st a true) s1
            some (.ok (updateHead s2))

theorem storeProcessBlockP_some (H : HashModel) (s : Store) (b : Block)
    (r : Except TErr Store) (h : storeProcessBlockP H s b = some r) :
    r = storeProcessBlock H s b := by
  unfold storeProcessBlockP at h
  dsimp only at h
  unfold storeProcessBlock
  dsimp only
  split at h
  · next hknown =>
    rw [if_pos hknown]
    exact (Option.some.inj h).symm
  · next hknown =>
    rw [if_neg hknown]
    cases hp : lookupS s.states b.parentRoot with
    | none =>
      rw [hp] at h
      exact (Option.some.inj h).symm
    | some parentState =>
      rw [hp] at h
      dsimp only at h ⊢
      cases hs : processSlots H parentState b.slot with
      | error e =>
        rw [hs] at h
        exact (Option.some.inj h).symm
      | ok st1 =>
        rw [hs] at h
        dsimp only at h ⊢
        cases hb : processBlockP H st1 b with
        | none => rw [hb] at h; exact absurd h (by simp)
        | some pr =>
          rw [hb] at h
          have hpr := processBlockP_some H st1 b pr hb
          rw [← hpr]
          cases pr with
          | error e =>
            dsimp only at h ⊢
            exact (Option.some.inj h).symm
          | ok newState =>
            dsimp only at h ⊢
            split at h
            · next hsr =>
              rw [if_pos hsr]
              exact (Option.some.inj h).symm
            · next hsr =>
              rw [if_neg hsr]
              exact (Option.some.inj h).symm

theorem processAttestationLocked_guard (s : Store) (a : Attestation)
    (fromBlock : Bool) (h : s.latestKnownVotes.length ≤ a.validatorID) :
    processAttestationLocked s a fromBlock = s := by
  unfold processAttestationLocked
  rw [if_pos h]

theorem processAttestationLocked_len (s : Store) (a : Attestation)
    (fromBlock : Bool) :
    (processAttestationLocked s a fromBlock).latestKnownVotes.length =
      s.latestKnownVotes.length := by
  unfold processAttestationLocked
  dsimp only
  split
  · rfl
  · split
    · split <;> split <;> simp [List.length_set]
    · split <;> rfl

theorem foldl_processAtt_filter (atts : List Attestation) :
    ∀ s : Store,
      atts.foldl (fun st a => processAttestationLocked st a true) s =
        (atts.filter fun a =>
            decide (a.validatorID < s.latestKnownVotes.length)).foldl
          (fun st a => processAttestationLocked st a true) s := by
  induction atts with
  | nil => intro s; rfl
  | cons a t ih =>
    intro s
    by_cases h : a.validatorID < s.latestKnownVotes.length
    · rw [List.filter_cons_of_pos (by simpa using h), List.foldl_cons, List.foldl_cons,
        ih (processAttestationLocked s a true),
        processAttestationLocked_len s a true]
    · rw [List.filter_cons_of_neg (by simpa using h), List.foldl_cons,
        processAttestationLocked_guard s a true (Nat.le_of_not_lt h)]
      exact ih s

/-- The C10 hash model: distinct, slot-derived roots so that the example
blocks get distinct hashes (the anchor block hashes to 50, the new block
to 51, every header to 50, every state to ten times its slot plus 3). -/
def c10H : HashModel :=
  { htrState := fun st => st.slot * 10 + 3
    htrHeader := fun _ => 50
    htrBody := fun _ => 0
    htrBlock := fun b => b.slot + 50 }

/-- The C10 anchor state: two validators at genesis. -/
def c10Anchor : State :=
  { numValidators := 2, genesisTime := 0, slot := 0
    latestBlockHeader := { slot := 0, proposerIndex := 0, parentRoot := 0,
                           stateRoot := 0, bodyRoot := 0 }
    latestJustified := Checkpoint.zero, latestFinalized := Checkpoint.zero
    historicalBlockHashes := [], justifiedSlots := []
    justificationRoots := [], justificationValidators := [] }

def c10AnchorBlock : Block :=
  { slot := 0, proposerIndex := 0, parentRoot := 0, stateRoot := 3,
    attestations := [] }

/-- The C10 store: the anchor block (root 50) with its state and two
empty vote slots. -/
def c10Store : Store :=
  { time := 0, head := 50, safeTarget := 50
    latestJustified := Checkpoint.zero, latestFinalized := Checkpoint.zero
    blocks := [(50, c10AnchorBlock)]
    states := [(50, c10Anchor)]
    latestKnownVotes := [Checkpoint.zero, Checkpoint.zero]
    latestNewVotes := [Checkpoint.zero, Checkpoint.zero] }

/-- A body attestation whose validator index 5 is out of range for the
two-slot vote arrays. -/
def c10AttOut : Attestation :=
  { validatorID := 5, slot := 1, head := ⟨50, 0⟩, target := ⟨50, 0⟩,
    source := ⟨0, 99⟩ }

/-- A body attestation that fails the gossip validation (its head block
root 999 is not stored) but is in range. -/
def c10AttIn : Attestation :=
  { validatorID := 0, slot := 1, head := ⟨999, 2⟩, target := ⟨50, 0⟩,
    source := ⟨0, 99⟩ }

/-- The C10 block: slot 1 on top of the anchor, carrying the two body
attestations above. -/
def c10Block : Block :=
  { slot := 1, proposerIndex := 1, parentRoot := 50, stateRoot := 13,
    attestations := [c10AttOut, c10AttIn] }

/-! ### The C10 panic chain: a crafted block whose out-of-range body
attestation passes the six on-chain validations, so the injected
transition reads the justification row out of range before the store's
defensive guard runs. -/

/-- The C10 panic-chain hash model: headers and blocks of the same slot
hash alike (as `hash_tree_root` makes them in the real codec), so the
parent-root validation and the store's parent lookup agree. -/
def c10bH : HashModel :=
  { htrState := fun st => st.slot * 10 + 3
    htrHeader := fun hd => hd.slot + 60
    htrBody := fun _ => 0
    htrBlock := fun b => b.slot + 60 }

/-- Two-validator genesis state. -/
def c10bGenesis : State :=
  { numValidators := 2, genesisTime := 0, slot := 0
    latestBlockHeader := { slot := 0, proposerIndex := 0, parentRoot := 0,
                           stateRoot := 0, bodyRoot := 0 }
    latestJustified := Checkpoint.zero, latestFinalized := Checkpoint.zero
    historicalBlockHashes := [], justifiedSlots := []
    justificationRoots := [], justificationValidators := [] }

def c10bAnchorBlock : Block :=
  { slot := 0, proposerIndex := 0, parentRoot := 0, stateRoot := 3,
    attestations := [] }

def c10bStore0 : Store :=
  { time := 0, head := 60, safeTarget := 60
    latestJustified := Checkpoint.zero, latestFinalized := Checkpoint.zero
    blocks := [(60, c10bAnchorBlock)]
    states := [(60, c10bGenesis)]
    latestKnownVotes := [Checkpoint.zero, Checkpoint.zero]
    latestNewVotes := [Checkpoint.zero, Checkpoint.zero] }

/-- An empty slot-1 block on the anchor, giving history length 2 at the
next block so a source / target pair can pass validations 3-5. -/
def c10bBlock1 : Block :=
  { slot := 1, proposerIndex := 1, parentRoot := 60, stateRoot := 13,
    attestations := [] }

/-- The crafted attestation: validator id 5 with two registered
validators, source the justified genesis checkpoint (slot 0, root 60 =
history[0]) and target the slot-1 block (root 61 = history[1]), so all
six on-chain validations pass and the row read at transition.go:174 is
reached with an out-of-range index. -/
def c10bAtt : Attestation :=
  { validatorID := 5, slot := 1, head := ⟨61, 1⟩, target := ⟨61, 1⟩,
    source := ⟨60, 0⟩ }

def c10bBlock2 : Block :=
  { slot := 2, proposerIndex := 0, parentRoot := 61, stateRoot := 23,
    attestations := [c10bAtt] }

/-- The slot-1 post-state (the genesis special case justifies and
finalizes the anchor root). -/
def c10bState1 : State :=
  { numValidators := 2, genesisTime := 0, slot := 1
    latestBlockHeader := { slot := 1, proposerIndex := 1, parentRoot := 60,
                           stateRoot := 0, bodyRoot := 0 }
    latestJustified := ⟨60, 0⟩, latestFinalized := ⟨60, 0⟩
    historicalBlockHashes := [60], justifiedSlots := [true]
    justificationRoots := [], justificationValidators := [false] }

/-- The store after processing `c10bBlock1`. -/
def c10bStore1 : Store :=
  { time := 0, head := 61, safeTarget := 60
    latestJustified := ⟨60, 0⟩, latestFinalized := ⟨60, 0⟩
    blocks := [(61, c10bBlock1), (60, c10bAnchorBlock)]
    states := [(61, c10bState1), (60, c10bGenesis)]
    latestKnownVotes := [Checkpoint.zero, Checkpoint.zero]
    latestNewVotes := [Checkpoint.zero, Checkpoint.zero] }

/-- C10 counterexample: `ProcessBlock` does NOT always survive an
out-of-range body attestation.  On the reachable store `c10bStore1`
(produced by `ProcessBlock` itself from the anchor), the slot-2 block's
single attestation has validator id 5 ≥ 2 = the vote-array length, yet
passes the six on-chain validations; the injected transition then reads
`justifications[target][5]` on a two-slot row — a Go runtime panic
(`none` in the partial model) hit before `processAttestationLocked`'s
guard — while the guard-only total model wrongly reports success with
the votes untouched. -/
theorem C10_out_of_range_body_attestation_panics :
    storeProcessBlockP c10bH c10bStore0 c10bBlock1 = some (.ok c10bStore1)
    ∧ c10bStore1.latestKnownVotes.length ≤ c10bAtt.validatorID
    ∧ c10bBlock2.attestations = [c10bAtt]
    ∧ storeProcessBlockP c10bH c10bStore1 c10bBlock2 = none
    ∧ (storeProcessBlock c10bH c10bStore1 c10bBlock2).map
        (fun st => (st.latestKnownVotes, st.latestNewVotes)) =
      Except.ok (c10bStore1.latestKnownVotes, c10bStore1.latestNewVotes) :=
  ⟨by rfl, by decide, by rfl, by rfl, by rfl⟩

/-- C10, amended: body attestations reach the store's vote bookkeeping
without the gossip validation; the vote-recording stage itself never
panics — its defensive guard leaves the store exactly unchanged for an
out-of-range validator id, so the body fold equals the fold over the
in-range attestations — but `ProcessBlock` as a whole is only panic-free
when the body's validator ids stay below the registered validator count:
the partial model agrees with the total one whenever it returns, the
transition stage is total on in-range bodies, and the concrete block
carrying one out-of-range attestation that fails on-chain validation 1
and one gossip-invalid attestation (`headNotFound`) still succeeds with
the in-range vote recorded and the out-of-range entries untouched. -/
theorem C10_body_attestations_store_handling_amended :
    (∀ (s : Store) (a : Attestation) (fromBlock : Bool),
        s.latestKnownVotes.length ≤ a.validatorID →
        processAttestationLocked s a fromBlock = s)
    ∧ (∀ (s : Store) (atts : List Attestation),
        atts.foldl (fun st a => processAttestationLocked st a true) s =
          (atts.filter fun a =>
              decide (a.validatorID < s.latestKnownVotes.length)).foldl
            (fun st a => processAttestationLocked st a true) s)
    ∧ (∀ (H : HashModel) (s : Store) (b : Block) (r : Except TErr Store),
        storeProcessBlockP H s b = some r → r = storeProcessBlock H s b)
    ∧ (∀ (st : State) (atts : List Attestation),
        (∀ a ∈ atts, a.validatorID < st.numValidators) →
        processAttestationsP st atts = some (processAttestations st atts))
    ∧ validateAttestation c10Store 1 c10AttIn = some VErr.headNotFound
    ∧ c10Store.latestKnownVotes.length ≤ c10AttOut.validatorID
    ∧ ((storeProcessBlockP c10H c10Store c10Block).map
          (Except.map fun st => (st.latestKnownVotes, st.latestNewVotes))) =
        some (Except.ok ([(⟨50, 0⟩ : Checkpoint), Checkpoint.zero],
          [Checkpoint.zero, Checkpoint.zero])) :=
  ⟨fun s a fb h => processAttestationLocked_guard s a fb h,
   fun s atts => foldl_processAtt_filter atts s,
   storeProcessBlockP_some,
   processAttestationsP_in_range,
   by decide, by decide, by rfl⟩

/-- Witness for `C10_body_attestations_store_handling_amended`: the
guard, the model agreement and the in-range totality applied at concrete
inputs. -/
theorem C10_body_attestations_store_handling_amended_witness :
    (c10Store.latestKnownVotes.length ≤ c10AttOut.validatorID ∧
      processAttestationLocked c10Store c10AttOut true = c10Store) ∧
    Except.ok c10bStore1 = storeProcessBlock c10bH c10bStore0 c10bBlock1 ∧
    processAttestationsP c1State [c1Att 0] =
      some (processAttestations c1State [c1Att 0]) :=
  ⟨⟨by decide,
    C10_body_attestations_store_handling_amended.1 c10Store c10AttOut true
      (by decide)⟩,
   C10_body_attestations_store_handling_amended.2.2.1 c10bH c10bStore0
     c10bBlock1 (.ok c10bStore1) (by rfl),
   C10_body_attestations_store_handling_amended.2.2.2.1 c1State [c1Att 0]
     (by decide)⟩

/-! ## Block production (`ProduceBlock`, `validator/producer.go`,
`forkchoice/time.go`) -/

/-- `INTERVALS_PER_SLOT` (`types` package). -/
def IntervalsPerSlot : Nat := 4

/-- `acceptNewVotesLocked`: promote every non-zero pending new vote to a
known vote, clear it, and recompute the head.  The two vote arrays always
have the same length (both sized to the validator count), which the
pointwise zip relies on. -/
def acceptNewVotes (s : Store) : Store :=
  let known := (s.latestKnownVotes.zip s.latestNewVotes).map
    fun p => if p.2.root ≠ 0 then p.2 else p.1
  let newv := s.latestNewVotes.map fun v => if v.root ≠ 0 then Checkpoint.zero else v
  updateHead { s with latestKnownVotes := known, latestNewVotes := newv }

/-- `updateSafeTargetLocked`: the safe target is the head of the pending
new votes under the ceiling-of-two-thirds weight floor. -/
def updateSafeTarget (s : Store) : Store :=
  let numValidators := s.latestKnownVotes.length
  let minScore := (numValidators * 2 + 2) / 3
  { s with safeTarget := getHead s.blocks s.latestJustified.root s.latestNewVotes minScore }

/-- `tickIntervalLocked`: advance store time one interval; on interval 0
accept pending votes when a proposal is due, on interval 2 recompute the
safe target, on interval 3 accept pending votes (interval 1 is the voting
interval, no action). -/
def tickInterval (s : Store) (hasProposal : Bool) : Store :=
  let s := { s with time := s.time + 1 }
  match s.time % IntervalsPerSlot with
  | 0 => if hasProposal then acceptNewVotes s else s
  | 1 => s
  | 2 => updateSafeTarget s
  | _ => acceptNewVotes s

/-- The `for s.Time < tickIntervalTime` loop of `advanceToSlotLocked`.
Each tick raises the time by exactly one, so `target - s.time` at entry
is the exact iteration count and stands in as structural fuel. -/
def advanceLoop (target : Nat) : Nat → Store → Store
  | 0, s => s
  | fuel + 1, s =>
    if s.time < target then
      advanceLoop target fuel (tickInterval s (decide (s.time + 1 = target)))
    else s

/-- `advanceToSlotLocked`: tick to the slot's first interval (the
genesis-time offset cancels:
`(genesis + slot·SECONDS_PER_SLOT - genesis) / SECONDS_PER_INTERVAL =
slot · INTERVALS_PER_SLOT`), signalling the proposal on the final tick,
then accept pending votes. -/
def advanceToSlot (s : Store) (slot : Nat) : Store :=
  let target := slot * IntervalsPerSlot
  acceptNewVotes (advanceLoop target (target - s.time) s)

/-- `validator.CollectNewAttestations`: for every validator index whose
known vote has a non-zero root, whose target block is stored, and who is
not already represented in the existing set, build the attestation
`{slot: vote.slot, head: vote, target: vote, source: latestJustified}`.
The index iteration of the Go `range` is the index range of the list. -/
def collectNewAttestations (knownVotes : List Checkpoint) (blockExists : Root → Bool)
    (latestJustified : Checkpoint) (existing : List Attestation) : List Attestation :=
  (List.range knownVotes.length).filterMap fun vid =>
    let cp := knownVotes.getD vid Checkpoint.zero
    if cp.root = 0 then none
    else if ¬ blockExists cp.root = true then none
    else if existing.any (fun att => decide (att.validatorID = vid)) = true then none
    else some { validatorID := vid, slot := cp.slot, head := cp, target := cp,
                source := latestJustified }

/-- `validator.BuildBlock`: advance the head state to the slot, assemble
the block with a zero state root, run the block transition, then fill the
state root with the post-state's hash tree root. -/
def buildBlock (H : HashModel) (slot : Nat) (validatorIndex : Nat) (parentRoot : Root)
    (headState : State) (attestations : List Attestation) :
    Except TErr (Block × State) :=
  match processSlots H headState slot with
  | .error e => .error e
  | .ok finalState =>
    let block : Block := { slot := slot, proposerIndex := validatorIndex,
                           parentRoot := parentRoot, stateRoot := 0,
                           attestations := attestations }
    match processBlock H finalState block with
    | .error e => .error e
    | .ok postState =>
      .ok ({ block with stateRoot := H.htrState postState }, postState)

/-- The fixed-point loop of `ProduceBlock`: build a candidate block,
collect the attestations the candidate's post-state newly admits, stop
when a round adds none (storing block and post-state and recomputing the
head), else append them and repeat.  Each iteration adds at least one
attestation with a validator index fresh to the set, so at most one round
per validator plus one runs; the fuel models that bound and `loopLimit`
never fires on the runs proved below. -/
def produceBlockLoop (H : HashModel) (s : Store) (slot validatorIndex : Nat)
    (headRoot : Root) (headState : State) :
    Nat → List Attestation → Except TErr (Store × Block)
  | 0, _ => .error .loopLimit
  | fuel + 1, attestations =>
    match buildBlock H slot validatorIndex headRoot headState attestations with
    | .error e => .error e
    | .ok bp =>
      let newAtts := collectNewAttestations s.latestKnownVotes
        (fun r => (lookupB s.blocks r).isSome) bp.2.latestJustified attestations
      if newAtts = [] then
        let blockHash := H.htrBlock bp.1
        .ok (updateHead { s with
              blocks := (blockHash, bp.1) :: s.blocks
              states := (blockHash, bp.2) :: s.states }, bp.1)
      else
        produceBlockLoop H s slot validatorIndex headRoot headState fuel
          (attestations ++ newAtts)

/-- `Store.ProduceBlock`: validate the round-robin proposer against the
head state's validator count, advance to the slot, and run the
fixed-point collection from the empty attestation set.  (The first Go
head-state access is unguarded — a missing head state would dereference
nil; the model returns the same error as the later guarded lookup.) -/
def produceBlock (H : HashModel) (s : Store) (slot validatorIndex : Nat) :
    Except TErr (Store × Block) :=
  match lookupS s.states s.head with
  | none => .error .headNotFound
  | some headState0 =>
    if validatorIndex ≠ slot % headState0.numValidators then .error .notProposer
    else
      let s1 := advanceToSlot s slot
      match lookupS s1.states s1.head with
      | none => .error .headNotFound
      | some headState =>
        produceBlockLoop H s1 slot validatorIndex s1.head headState
          (s1.latestKnownVotes.length + 1) []

theorem buildBlock_ok (H : HashModel) (slot vid : Nat) (parentRoot : Root)
    (headState : State) (atts : List Attestation) (b : Block) (post : State)
    (h : buildBlock H slot vid parentRoot headState atts = .ok (b, post)) :
    b.attestations = atts ∧ b.stateRoot = H.htrState post := by
  unfold buildBlock at h
  cases h1 : processSlots H headState slot with
  | error e => rw [h1] at h; exact absurd h (by simp)
  | ok finalState =>
    rw [h1] at h
    dsimp only at h
    cases h2 : processBlock H finalState
        { slot := slot, proposerIndex := vid, parentRoot := parentRoot,
          stateRoot := 0, attestations := atts } with
    | error e => rw [h2] at h; exact absurd h (by simp)
    | ok postState =>
      rw [h2] at h
      dsimp only at h
      injection h with h'
      injection h' with hb hp
      subst hb hp
      exact ⟨rfl, rfl⟩

theorem produceBlockLoop_fixed (H : HashModel) (s : Store) (slot vid : Nat)
    (headRoot : Root) (headState : State) :
    ∀ (fuel : Nat) (atts : List Attestation) (s' : Store) (block : Block),
      produceBlockLoop H s slot vid headRoot headState fuel atts =
          .ok (s', block) →
      ∃ postState : State,
        buildBlock H slot vid headRoot headState block.attestations =
          .ok (block, postState) ∧
        collectNewAttestations s.latestKnownVotes
          (fun r => (lookupB s.blocks r).isSome) postState.latestJustified
          block.attestations = [] ∧
        block.stateRoot = H.htrState postState := by
  intro fuel
  induction fuel with
  | zero =>
    intro atts s' block h
    exact absurd h (by simp [produceBlockLoop])
  | succ fuel ih =>
    intro atts s' block h
    unfold produceBlockLoop at h
    cases hb : buildBlock H slot vid headRoot headState atts with
    | error e => rw [hb] at h; exact absurd h (by simp)
    | ok bp =>
      rw [hb] at h
      dsimp only at h
      by_cases hempty : collectNewAttestations s.latestKnownVotes
          (fun r => (lookupB s.blocks r).isSome) bp.2.latestJustified atts = []
      · rw [if_pos hempty] at h
        injection h with h'
        injection h' with hs hbk
        obtain ⟨hattr, hroot⟩ := buildBlock_ok H slot vid headRoot headState atts
          bp.1 bp.2 (by rw [hb])
        subst hbk
        refine ⟨bp.2, ?_, ?_, hroot⟩
        · rw [hattr]
          rw [hb]
        · rw [hattr]
          exact hempty
      · rw [if_neg hempty] at h
        exact ih _ _ _ h

/-- The C4 hash model: slot-derived roots keeping the anchor block (50)
and the produced block (51) apart; headers hash to the anchor root. -/
def c4H : HashModel :=
  { htrState := fun st => st.slot * 10 + 3
    htrHeader := fun _ => 50
    htrBody := fun _ => 0
    htrBlock := fun b => b.slot + 50 }

/-- The C4 anchor state: two validators at genesis. -/
def c4Anchor : State :=
  { numValidators := 2, genesisTime := 0, slot := 0
    latestBlockHeader := { slot := 0, proposerIndex := 0, parentRoot := 0,
                           stateRoot := 0, bodyRoot := 0 }
    latestJustified := Checkpoint.zero, latestFinalized := Checkpoint.zero
    historicalBlockHashes := [], justifiedSlots := []
    justificationRoots := [], justificationValidators := [] }

def c4AnchorBlock : Block :=
  { slot := 0, proposerIndex := 0, parentRoot := 0, stateRoot := 3,
    attestations := [] }

/-- The C4 store: the anchor (root 50), validator 0's known vote for it,
validator 1 not yet voting. -/
def c4Store : Store :=
  { time := 0, head := 50, safeTarget := 50
    latestJustified := Checkpoint.zero, latestFinalized := Checkpoint.zero
    blocks := [(50, c4AnchorBlock)]
    states := [(50, c4Anchor)]
    latestKnownVotes := [⟨50, 0⟩, Checkpoint.zero]
    latestNewVotes := [Checkpoint.zero, Checkpoint.zero] }

/-- The attestation round one collects: validator 0's vote with the
post-state's justified checkpoint (root 50 after the genesis special
case) as source. -/
def c4Att : Attestation :=
  { validatorID := 0, slot := 0, head := ⟨50, 0⟩, target := ⟨50, 0⟩,
    source := ⟨50, 0⟩ }

/-- The block `ProduceBlock` converges to: slot 1, proposer 1, carrying
exactly `c4Att`, with the post-state's hash tree root as state root. -/
def c4Block : Block :=
  { slot := 1, proposerIndex := 1, parentRoot := 50, stateRoot := 13,
    attestations := [c4Att] }

/-- C4: whenever the fixed-point loop of `ProduceBlock` returns a block,
rebuilding the block from its own attestation set reproduces it together
with a post-state against which the collection round adds nothing (the
fixed point), and the block's state root is that post-state's hash tree
root; an attestation is collected exactly for the validator indices whose
known vote is non-zero, whose target block exists, and who are absent
from the existing set, with data
`{slot: vote.slot, head: vote, target: vote, source: latest_justified}`;
and on the concrete store, production for slot 1 starts from the empty
set, round one adds validator 0's attestation, round two adds nothing,
and the returned block carries exactly it. -/
theorem C4_produce_block_fixed_point :
    (∀ (H : HashModel) (s : Store) (slot vid : Nat) (headRoot : Root)
        (headState : State) (fuel : Nat) (atts : List Attestation) (block : Block),
        (produceBlockLoop H s slot vid headRoot headState fuel atts).map
            Prod.snd = .ok block →
        ∃ postState : State,
          buildBlock H slot vid headRoot headState block.attestations =
            .ok (block, postState) ∧
          collectNewAttestations s.latestKnownVotes
            (fun r => (lookupB s.blocks r).isSome) postState.latestJustified
            block.attestations = [] ∧
          block.stateRoot = H.htrState postState)
    ∧ (∀ (kv : List Checkpoint) (be : Root → Bool) (lj : Checkpoint)
        (existing : List Attestation) (a : Attestation),
        a ∈ collectNewAttestations kv be lj existing ↔
          ∃ vid, vid < kv.length ∧
            (kv.getD vid Checkpoint.zero).root ≠ 0 ∧
            be (kv.getD vid Checkpoint.zero).root = true ∧
            (∀ att ∈ existing, att.validatorID ≠ vid) ∧
            a = { validatorID := vid, slot := (kv.getD vid Checkpoint.zero).slot,
                  head := kv.getD vid Checkpoint.zero,
                  target := kv.getD vid Checkpoint.zero, source := lj })
    ∧ collectNewAttestations c4Store.latestKnownVotes
        (fun r => (lookupB c4Store.blocks r).isSome) ⟨50, 0⟩ [] = [c4Att]
    ∧ collectNewAttestations c4Store.latestKnownVotes
        (fun r => (lookupB c4Store.blocks r).isSome) ⟨50, 0⟩ [c4Att] = []
    ∧ (produceBlock c4H c4Store 1 1).map Prod.snd = .ok c4Block := by
  refine ⟨?_, ?_, by decide, by decide, by rfl⟩
  · intro H s slot vid headRoot headState fuel atts block h
    cases hres : produceBlockLoop H s slot vid headRoot headState fuel atts with
    | error e => rw [hres] at h; exact absurd h (by simp [Except.map])
    | ok p =>
      rw [hres] at h
      simp only [Except.map, Except.ok.injEq] at h
      subst h
      exact produceBlockLoop_fixed H s slot vid headRoot headState fuel atts
        p.1 p.2 (by rw [hres])
  · intro kv be lj existing a
    unfold collectNewAttestations
    rw [List.mem_filterMap]
    constructor
    · rintro ⟨vid, hvid, hf⟩
      rw [List.mem_range] at hvid
      dsimp only at hf
      split at hf
      · exact absurd hf (by simp)
      · split at hf
        · exact absurd hf (by simp)
        · split at hf
          · exact absurd hf (by simp)
          · next h1 h2 h3 =>
            injection hf with hf
            refine ⟨vid, hvid, h1, not_not.mp h2, ?_, hf.symm⟩
            intro att ha hc
            exact h3 (List.any_eq_true.mpr ⟨att, ha, by simpa using hc⟩)
    · rintro ⟨vid, hvid, h1, h2, h3, rfl⟩
      refine ⟨vid, List.mem_range.mpr hvid, ?_⟩
      dsimp only
      rw [if_neg h1, if_neg (not_not.mpr h2), if_neg ?_]
      intro hc
      rw [List.any_eq_true] at hc
      obtain ⟨att, ha, hb⟩ := hc
      exact h3 att ha (by simpa using hb)

/-- Witness for `C4_produce_block_fixed_point`: the fixed-point property
applied to the concrete converged production run. -/
theorem C4_produce_block_fixed_point_witness :
    ∃ postState : State,
      buildBlock c4H 1 1 50 c4Anchor c4Block.attestations =
        .ok (c4Block, postState) ∧
      collectNewAttestations (advanceToSlot c4Store 1).latestKnownVotes
        (fun r => (lookupB (advanceToSlot c4Store 1).blocks r).isSome)
        postState.latestJustified c4Block.attestations = [] ∧
      c4Block.stateRoot = c4H.htrState postState :=
  C4_produce_block_fixed_point.1 c4H (advanceToSlot c4Store 1) 1 1 50 c4Anchor
    3 [] c4Block (by rfl)

/-! ## The SSZ codec.  The generated encoder / decoder sources
(`*_encoding.go`) are not part of this tree, so the byte format is
modelled from the specification; container shapes follow
`types/containers.go`.  Bytes are naturals below 256; a 32-byte root is
read big-endian so that the numeric order of `Root` is the lexicographic
byte order the fork choice compares with. -/

/-- Modelled from the spec: little-endian fixed-width integer bytes. -/
def natToBytesLE : Nat → Nat → List Nat
  | 0, _ => []
  | w + 1, v => v % 256 :: natToBytesLE w (v / 256)

/-- Modelled from the spec: read little-endian bytes back as a natural. -/
def bytesToNatLE (bs : List Nat) : Nat :=
  bs.foldr (fun b acc => b + 256 * acc) 0

/-- Modelled from the spec: big-endian bytes of an opaque byte array
(roots, pubkeys, signatures) valued as a natural. -/
def natToBytesBE (w v : Nat) : List Nat :=
  (natToBytesLE w v).reverse

def bytesToNatBE (bs : List Nat) : Nat :=
  bytesToNatLE bs.reverse

def u64le (v : Nat) : List Nat := natToBytesLE 8 v

def u32le (v : Nat) : List Nat := natToBytesLE 4 v

def rootBytes (r : Root) : List Nat := natToBytesBE 32 r

theorem natToBytesLE_length (w v : Nat) : (natToBytesLE w v).length = w := by
  induction w generalizing v with
  | zero => rfl
  | succ w ih => simp [natToBytesLE, ih]

theorem natToBytesBE_length (w v : Nat) : (natToBytesBE w v).length = w := by
  unfold natToBytesBE
  rw [List.length_reverse, natToBytesLE_length]

theorem bytesToNatLE_natToBytesLE (w v : Nat) (h : v < 256 ^ w) :
    bytesToNatLE (natToBytesLE w v) = v := by
  induction w generalizing v with
  | zero => simp at h; simp [natToBytesLE, bytesToNatLE, h]
  | succ w ih =>
    have hlt : v / 256 < 256 ^ w := by
      rw [Nat.div_lt_iff_lt_mul (by norm_num)]
      calc v < 256 ^ (w + 1) := h
        _ = 256 ^ w * 256 := by ring
    show v % 256 + 256 * bytesToNatLE (natToBytesLE w (v / 256)) = v
    rw [ih (v / 256) hlt]
    omega

theorem bytesToNatBE_natToBytesBE (w v : Nat) (h : v < 256 ^ w) :
    bytesToNatBE (natToBytesBE w v) = v := by
  unfold bytesToNatBE natToBytesBE
  rw [List.reverse_reverse]
  exact bytesToNatLE_natToBytesLE w v h

/-- The value of up to eight bits, least significant first. -/
def bitsByte (l : List Bool) : Nat :=
  l.foldr (fun b acc => (cond b 1 0) + 2 * acc) 0

/-- The eight bits of a byte, least significant first. -/
def byteToBits (b : Nat) : List Bool :=
  [decide (b / 1 % 2 = 1), decide (b / 2 % 2 = 1), decide (b / 4 % 2 = 1),
   decide (b / 8 % 2 = 1), decide (b / 16 % 2 = 1), decide (b / 32 % 2 = 1),
   decide (b / 64 % 2 = 1), decide (b / 128 % 2 = 1)]

/-- Modelled from the spec: pack bits into bytes, eight per byte, least
significant bit first, the final short byte zero-padded. -/
def packBits : List Bool → List Nat
  | [] => []
  | [b0] => [bitsByte [b0]]
  | [b0, b1] => [bitsByte [b0, b1]]
  | [b0, b1, b2] => [bitsByte [b0, b1, b2]]
  | [b0, b1, b2, b3] => [bitsByte [b0, b1, b2, b3]]
  | [b0, b1, b2, b3, b4] => [bitsByte [b0, b1, b2, b3, b4]]
  | [b0, b1, b2, b3, b4, b5] => [bitsByte [b0, b1, b2, b3, b4, b5]]
  | [b0, b1, b2, b3, b4, b5, b6] => [bitsByte [b0, b1, b2, b3, b4, b5, b6]]
  | b0 :: b1 :: b2 :: b3 :: b4 :: b5 :: b6 :: b7 :: rest =>
    bitsByte [b0, b1, b2, b3, b4, b5, b6, b7] :: packBits rest

def bytesToBits (bs : List Nat) : List Bool :=
  bs.foldr (fun b acc => byteToBits b ++ acc) []

/-- Drop the trailing zero bits and the delimiter bit; `none` when no
delimiter exists (`InvalidBitlist`). -/
def stripDelimiter (l : List Bool) : Option (List Bool) :=
  match l.reverse.dropWhile (fun b => b = false) with
  | [] => none
  | _ :: rest => some rest.reverse

/-- Modelled from the spec: a bitlist is its bits followed by a delimiter
bit, packed into bytes. -/
def encodeBitlist (bits : List Bool) : List Nat :=
  packBits (bits ++ [true])

/-- Modelled from the spec: unpack all bits, strip the delimiter, and
demand the canonical byte count (equivalently: the delimiter lives in the
last byte, which is then non-zero). -/
def decodeBitlist (bs : List Nat) : Option (List Bool) :=
  if bs.length = 0 then none
  else
    match stripDelimiter (bytesToBits bs) with
    | none => none
    | some bits => if bs.length = bits.length / 8 + 1 then some bits else none

theorem byteToBits_bitsByte8 (b0 b1 b2 b3 b4 b5 b6 b7 : Bool) :
    byteToBits (bitsByte [b0, b1, b2, b3, b4, b5, b6, b7]) =
      [b0, b1, b2, b3, b4, b5, b6, b7] := by
  cases b0 <;> cases b1 <;> cases b2 <;> cases b3 <;>
    cases b4 <;> cases b5 <;> cases b6 <;> cases b7 <;> rfl

theorem unpack_pack (l : List Bool) :
    ∃ m, bytesToBits (packBits l) = l ++ List.replicate m false := by
  induction l using packBits.induct with
  | case1 => exact ⟨0, rfl⟩
  | case2 b0 => exact ⟨7, by cases b0 <;> rfl⟩
  | case3 b0 b1 => exact ⟨6, by cases b0 <;> cases b1 <;> rfl⟩
  | case4 b0 b1 b2 => exact ⟨5, by cases b0 <;> cases b1 <;> cases b2 <;> rfl⟩
  | case5 b0 b1 b2 b3 =>
    exact ⟨4, by cases b0 <;> cases b1 <;> cases b2 <;> cases b3 <;> rfl⟩
  | case6 b0 b1 b2 b3 b4 =>
    exact ⟨3, by cases b0 <;> cases b1 <;> cases b2 <;> cases b3 <;> cases b4 <;> rfl⟩
  | case7 b0 b1 b2 b3 b4 b5 =>
    exact ⟨2, by cases b0 <;> cases b1 <;> cases b2 <;> cases b3 <;> cases b4 <;>
      cases b5 <;> rfl⟩
  | case8 b0 b1 b2 b3 b4 b5 b6 =>
    exact ⟨1, by cases b0 <;> cases b1 <;> cases b2 <;> cases b3 <;> cases b4 <;>
      cases b5 <;> cases b6 <;> rfl⟩
  | case9 b0 b1 b2 b3 b4 b5 b6 b7 rest ih =>
    obtain ⟨m, hm⟩ := ih
    refine ⟨m, ?_⟩
    show byteToBits (bitsByte [b0, b1, b2, b3, b4, b5, b6, b7]) ++
        bytesToBits (packBits rest) = _
    rw [byteToBits_bitsByte8, hm]
    simp

theorem packBits_length (l : List Bool) :
    (packBits l).length = (l.length + 7) / 8 := by
  induction l using packBits.induct with
  | case9 b0 b1 b2 b3 b4 b5 b6 b7 rest ih =>
    show (bitsByte _ :: packBits rest).length = _
    simp only [List.length_cons, ih, List.length_cons]
    omega
  | _ => simp [packBits]

theorem dropWhile_replicate_false (m : Nat) (r : List Bool) :
    (List.replicate m false ++ r).dropWhile (fun b => b = false) =
      r.dropWhile (fun b => b = false) := by
  induction m with
  | zero => rfl
  | succ m ih => simp [List.replicate_succ, ih]

theorem stripDelimiter_spec (l : List Bool) (m : Nat) :
    stripDelimiter (l ++ true :: List.replicate m false) = some l := by
  unfold stripDelimiter
  rw [List.reverse_append, List.reverse_cons, List.reverse_replicate,
    List.append_assoc, dropWhile_replicate_false]
  simp [List.dropWhile]

theorem encodeBitlist_length (l : List Bool) :
    (encodeBitlist l).length = (l.length + 8) / 8 := by
  unfold encodeBitlist
  rw [packBits_length]
  simp only [List.length_append, List.length_cons, List.length_nil]

theorem decodeBitlist_encodeBitlist (l : List Bool) :
    decodeBitlist (encodeBitlist l) = some l := by
  have hlen := encodeBitlist_length l
  unfold decodeBitlist
  rw [if_neg (by omega)]
  obtain ⟨m, hm⟩ := unpack_pack (l ++ [true])
  unfold encodeBitlist
  rw [hm, List.append_assoc, List.singleton_append, stripDelimiter_spec]
  unfold encodeBitlist at hlen
  dsimp only
  rw [if_pos (by omega)]

/-! ### Container values and their wire encodings -/

/-- `Config` from `types/containers.go` (only the genesis time). -/
structure Config where
  genesisTime : Nat
deriving DecidableEq, Repr

/-- `AttestationData` from `types/containers.go`. -/
structure AttestationData where
  slot : Nat
  head : Checkpoint
  target : Checkpoint
  source : Checkpoint
deriving DecidableEq, Repr

/-- `SignedAttestation` from `types/containers.go`; the 3112-byte XMSS
signature is an opaque byte array valued as a natural. -/
structure SignedAttestation where
  message : Attestation
  signature : Nat
deriving DecidableEq, Repr

/-- `Validator` from `types/containers.go`; the 52-byte pubkey is an
opaque byte array valued as a natural. -/
structure Validator where
  pubkey : Nat
  index : Nat
deriving DecidableEq, Repr

/-- The full SSZ `State` of `types/containers.go` (the transition model's
`State` keeps only the fields the transition reads; this one carries the
config and the validator registry for the codec). -/
structure SSZState where
  config : Config
  slot : Nat
  latestBlockHeader : BlockHeader
  latestJustified : Checkpoint
  latestFinalized : Checkpoint
  historicalBlockHashes : List Root
  justifiedSlots : List Bool
  validators : List Validator
  justificationRoots : List Root
  justificationValidators : List Bool
deriving DecidableEq, Repr

/-- Well-typedness: every field value fits its declared width and every
list its declared `ssz-max`. -/
abbrev wtU64 (v : Nat) : Prop := v < 2 ^ 64

abbrev wtRoot (r : Root) : Prop := r < 2 ^ 256

abbrev wtCheckpoint (c : Checkpoint) : Prop := wtRoot c.root ∧ wtU64 c.slot

abbrev wtConfig (c : Config) : Prop := wtU64 c.genesisTime

abbrev wtAttestationData (d : AttestationData) : Prop :=
  wtU64 d.slot ∧ wtCheckpoint d.head ∧ wtCheckpoint d.target ∧ wtCheckpoint d.source

abbrev wtAttestation (a : Attestation) : Prop :=
  wtU64 a.validatorID ∧ wtU64 a.slot ∧ wtCheckpoint a.head ∧
    wtCheckpoint a.target ∧ wtCheckpoint a.source

abbrev wtSignedAttestation (sa : SignedAttestation) : Prop :=
  wtAttestation sa.message ∧ sa.signature < 2 ^ (8 * 3112)

abbrev wtValidator (v : Validator) : Prop :=
  v.pubkey < 2 ^ (8 * 52) ∧ wtU64 v.index

abbrev wtBlockHeader (h : BlockHeader) : Prop :=
  wtU64 h.slot ∧ wtU64 h.proposerIndex ∧ wtRoot h.parentRoot ∧
    wtRoot h.stateRoot ∧ wtRoot h.bodyRoot

abbrev wtBody (l : List Attestation) : Prop :=
  l.length ≤ 4096 ∧ ∀ a ∈ l, wtAttestation a

abbrev wtBlock (b : Block) : Prop :=
  wtU64 b.slot ∧ wtU64 b.proposerIndex ∧ wtRoot b.parentRoot ∧
    wtRoot b.stateRoot ∧ wtBody b.attestations

abbrev wtSSZState (s : SSZState) : Prop :=
  wtConfig s.config ∧ wtU64 s.slot ∧ wtBlockHeader s.latestBlockHeader ∧
    wtCheckpoint s.latestJustified ∧ wtCheckpoint s.latestFinalized ∧
    s.historicalBlockHashes.length ≤ 262144 ∧
    (∀ r ∈ s.historicalBlockHashes, wtRoot r) ∧
    s.justifiedSlots.length ≤ 262144 ∧
    s.validators.length ≤ 4096 ∧ (∀ v ∈ s.validators, wtValidator v) ∧
    s.justificationRoots.length ≤ 262144 ∧
    (∀ r ∈ s.justificationRoots, wtRoot r) ∧
    s.justificationValidators.length ≤ 1073741824

/-- Modelled from the spec: fields concatenated in declaration order,
fixed-width values inlined. -/
def encodeCheckpoint (c : Checkpoint) : List Nat :=
  rootBytes c.root ++ u64le c.slot

def encodeConfig (c : Config) : List Nat := u64le c.genesisTime

def encodeAttestationData (d : AttestationData) : List Nat :=
  u64le d.slot ++ encodeCheckpoint d.head ++ encodeCheckpoint d.target ++
    encodeCheckpoint d.source

/-- The transition model flattens `Attestation.Data`; the wire bytes are
identical because the nested fixed-size container is inlined: the
validator id, then the data fields. -/
def encodeAttestation (a : Attestation) : List Nat :=
  u64le a.validatorID ++
    encodeAttestationData ⟨a.slot, a.head, a.target, a.source⟩

def encodeSignedAttestation (sa : SignedAttestation) : List Nat :=
  encodeAttestation sa.message ++ natToBytesBE 3112 sa.signature

def encodeValidator (v : Validator) : List Nat :=
  natToBytesBE 52 v.pubkey ++ u64le v.index

def encodeBlockHeader (h : BlockHeader) : List Nat :=
  u64le h.slot ++ u64le h.proposerIndex ++ rootBytes h.parentRoot ++
    rootBytes h.stateRoot ++ rootBytes h.bodyRoot

def encodeAttList (l : List Attestation) : List Nat :=
  l.foldr (fun a acc => encodeAttestation a ++ acc) []

/-- Modelled from the spec: a container whose only field is a variable
list carries one 4-byte offset (its own fixed size, 4) and then the
packed elements. -/
def encodeBlockBody (body : List Attestation) : List Nat :=
  u32le 4 ++ encodeAttList body

/-- Modelled from the spec: `Block`'s fixed part is 8+8+32+32 bytes of
inline fields plus the 4-byte offset of the body, hence offset 84. -/
def encodeBlock (b : Block) : List Nat :=
  u64le b.slot ++ u64le b.proposerIndex ++ rootBytes b.parentRoot ++
    rootBytes b.stateRoot ++ u32le 84 ++ encodeBlockBody b.attestations

def encodeRootList (l : List Root) : List Nat :=
  l.foldr (fun r acc => rootBytes r ++ acc) []

def encodeValidatorList (l : List Validator) : List Nat :=
  l.foldr (fun v acc => encodeValidator v ++ acc) []

/-- Modelled from the spec: `State`'s fixed part is 8 (config) + 8 (slot)
+ 112 (header) + 40 + 40 (checkpoints) + 5·4 (offsets) = 228 bytes; the
five variable fields pack at the tail in declaration order, each offset
the byte position of its field's content. -/
def encodeState (s : SSZState) : List Nat :=
  let hist := encodeRootList s.historicalBlockHashes
  let js := encodeBitlist s.justifiedSlots
  let vals := encodeValidatorList s.validators
  let jr := encodeRootList s.justificationRoots
  let jv := encodeBitlist s.justificationValidators
  let o2 := 228 + hist.length
  let o3 := o2 + js.length
  let o4 := o3 + vals.length
  let o5 := o4 + jr.length
  encodeConfig s.config ++ u64le s.slot ++
    encodeBlockHeader s.latestBlockHeader ++
    encodeCheckpoint s.latestJustified ++ encodeCheckpoint s.latestFinalized ++
    u32le 228 ++ u32le o2 ++ u32le o3 ++ u32le o4 ++ u32le o5 ++
    hist ++ js ++ vals ++ jr ++ jv

/-! ### Decoding: prefix readers and container decoders -/

/-- Take `n` bytes off the front, or fail on short input. -/
def readBytes (n : Nat) (bs : List Nat) : Option (List Nat × List Nat) :=
  if n ≤ bs.length then some (bs.take n, bs.drop n) else none

def readU64 (bs : List Nat) : Option (Nat × List Nat) :=
  match readBytes 8 bs with
  | none => none
  | some (b, r) => some (bytesToNatLE b, r)

def readU32 (bs : List Nat) : Option (Nat × List Nat) :=
  match readBytes 4 bs with
  | none => none
  | some (b, r) => some (bytesToNatLE b, r)

/-- Read a `w`-byte opaque array (root, pubkey, signature). -/
def readArr (w : Nat) (bs : List Nat) : Option (Nat × List Nat) :=
  match readBytes w bs with
  | none => none
  | some (b, r) => some (bytesToNatBE b, r)

def readCheckpoint (bs : List Nat) : Option (Checkpoint × List Nat) :=
  match readArr 32 bs with
  | none => none
  | some (root, r1) =>
    match readU64 r1 with
    | none => none
    | some (slot, r2) => some (⟨root, slot⟩, r2)

def readAttestationData (bs : List Nat) : Option (AttestationData × List Nat) :=
  match readU64 bs with
  | none => none
  | some (slot, r1) =>
    match readCheckpoint r1 with
    | none => none
    | some (hd, r2) =>
      match readCheckpoint r2 with
      | none => none
      | some (tg, r3) =>
        match readCheckpoint r3 with
        | none => none
        | some (src, r4) => some (⟨slot, hd, tg, src⟩, r4)

def readAttestation (bs : List Nat) : Option (Attestation × List Nat) :=
  match readU64 bs with
  | none => none
  | some (vid, r1) =>
    match readAttestationData r1 with
    | none => none
    | some (d, r2) =>
      some (⟨vid, d.slot, d.head, d.target, d.source⟩, r2)

def readSignedAttestation (bs : List Nat) :
    Option (SignedAttestation × List Nat) :=
  match readAttestation bs with
  | none => none
  | some (msg, r1) =>
    match readArr 3112 r1 with
    | none => none
    | some (sig, r2) => some (⟨msg, sig⟩, r2)

def readValidator (bs : List Nat) : Option (Validator × List Nat) :=
  match readArr 52 bs with
  | none => none
  | some (pk, r1) =>
    match readU64 r1 with
    | none => none
    | some (idx, r2) => some (⟨pk, idx⟩, r2)

def readBlockHeader (bs : List Nat) : Option (BlockHeader × List Nat) :=
  match readU64 bs with
  | none => none
  | some (slot, r1) =>
    match readU64 r1 with
    | none => none
    | some (pi, r2) =>
      match readArr 32 r2 with
      | none => none
      | some (pr, r3) =>
        match readArr 32 r3 with
        | none => none
        | some (sr, r4) =>
          match readArr 32 r4 with
          | none => none
          | some (br, r5) => some (⟨slot, pi, pr, sr, br⟩, r5)

/-- A whole-buffer decoder from a prefix reader: trailing bytes fail. -/
def decodeCheckpoint (bs : List Nat) : Option Checkpoint :=
  match readCheckpoint bs with
  | some (c, []) => some c
  | _ => none

def decodeConfig (bs : List Nat) : Option Config :=
  match readU64 bs with
  | some (v, []) => some ⟨v⟩
  | _ => none

def decodeAttestationData (bs : List Nat) : Option AttestationData :=
  match readAttestationData bs with
  | some (d, []) => some d
  | _ => none

def decodeAttestation (bs : List Nat) : Option Attestation :=
  match readAttestation bs with
  | some (a, []) => some a
  | _ => none

def decodeSignedAttestation (bs : List Nat) : Option SignedAttestation :=
  match readSignedAttestation bs with
  | some (sa, []) => some sa
  | _ => none

def decodeValidator (bs : List Nat) : Option Validator :=
  match readValidator bs with
  | some (v, []) => some v
  | _ => none

def decodeBlockHeader (bs : List Nat) : Option BlockHeader :=
  match readBlockHeader bs with
  | some (h, []) => some h
  | _ => none

/-- Element-list decoders: consume one fixed-size element at a time; the
fuel is the byte count, which bounds the element count. -/
def decodeAttListGo : Nat → List Nat → Option (List Attestation)
  | 0, bs => if bs = [] then some [] else none
  | fuel + 1, bs =>
    if bs = [] then some []
    else
      match readAttestation bs with
      | none => none
      | some (a, rest) =>
        match decodeAttListGo fuel rest with
        | none => none
        | some l => some (a :: l)

def decodeAttList (bs : List Nat) : Option (List Attestation) :=
  decodeAttListGo bs.length bs

def decodeRootListGo : Nat → List Nat → Option (List Root)
  | 0, bs => if bs = [] then some [] else none
  | fuel + 1, bs =>
    if bs = [] then some []
    else
      match readArr 32 bs with
      | none => none
      | some (r, rest) =>
        match decodeRootListGo fuel rest with
        | none => none
        | some l => some (r :: l)

def decodeRootList (bs : List Nat) : Option (List Root) :=
  decodeRootListGo bs.length bs

def decodeValidatorListGo : Nat → List Nat → Option (List Validator)
  | 0, bs => if bs = [] then some [] else none
  | fuel + 1, bs =>
    if bs = [] then some []
    else
      match readValidator bs with
      | none => none
      | some (v, rest) =>
        match decodeValidatorListGo fuel rest with
        | none => none
        | some l => some (v :: l)

def decodeValidatorList (bs : List Nat) : Option (List Validator) :=
  decodeValidatorListGo bs.length bs

/-- Modelled from the spec: read the offset, demand it equals the fixed
size 4, decode the packed elements, enforce the list maximum. -/
def decodeBlockBody (bs : List Nat) : Option (List Attestation) :=
  match readU32 bs with
  | none => none
  | some (o, r) =>
    if o = 4 then
      match decodeAttList r with
      | none => none
      | some atts => if atts.length ≤ 4096 then some atts else none
    else none

/-- Modelled from the spec: inline fields, the body offset (must equal
the fixed size 84), then the body content to the end of the buffer. -/
def decodeBlock (bs : List Nat) : Option Block :=
  match readU64 bs with
  | none => none
  | some (slot, r1) =>
    match readU64 r1 with
    | none => none
    | some (pi, r2) =>
      match readArr 32 r2 with
      | none => none
      | some (pr, r3) =>
        match readArr 32 r3 with
        | none => none
        | some (sr, r4) =>
          match readU32 r4 with
          | none => none
          | some (o, r5) =>
            if o = 84 then
              match decodeBlockBody r5 with
              | none => none
              | some atts =>
                some { slot := slot, proposerIndex := pi, parentRoot := pr,
                       stateRoot := sr, attestations := atts }
            else none

/-- Modelled from the spec: read the fixed fields and the five offsets,
demand the first offset equals the fixed size 228 and the offsets are
monotone and within the buffer, slice the five variable segments, decode
each, and enforce each list maximum. -/
def decodeState (bs : List Nat) : Option SSZState :=
  match readU64 bs with
  | none => none
  | some (gt, r1) =>
  match readU64 r1 with
  | none => none
  | some (slot, r2) =>
  match readBlockHeader r2 with
  | none => none
  | some (hdr, r3) =>
  match readCheckpoint r3 with
  | none => none
  | some (lj, r4) =>
  match readCheckpoint r4 with
  | none => none
  | some (lf, r5) =>
  match readU32 r5 with
  | none => none
  | some (o1, r6) =>
  match readU32 r6 with
  | none => none
  | some (o2, r7) =>
  match readU32 r7 with
  | none => none
  | some (o3, r8) =>
  match readU32 r8 with
  | none => none
  | some (o4, r9) =>
  match readU32 r9 with
  | none => none
  | some (o5, r10) =>
    if o1 = 228 ∧ o1 ≤ o2 ∧ o2 ≤ o3 ∧ o3 ≤ o4 ∧ o4 ≤ o5 ∧ o5 ≤ bs.length then
      match decodeRootList (r10.take (o2 - o1)) with
      | none => none
      | some hist =>
      match decodeBitlist ((r10.drop (o2 - o1)).take (o3 - o2)) with
      | none => none
      | some js =>
      match decodeValidatorList
          (((r10.drop (o2 - o1)).drop (o3 - o2)).take (o4 - o3)) with
      | none => none
      | some vals =>
      match decodeRootList
          ((((r10.drop (o2 - o1)).drop (o3 - o2)).drop (o4 - o3)).take (o5 - o4)) with
      | none => none
      | some jr =>
      match decodeBitlist
          ((((r10.drop (o2 - o1)).drop (o3 - o2)).drop (o4 - o3)).drop (o5 - o4)) with
      | none => none
      | some jv =>
        if hist.length ≤ 262144 ∧ js.length ≤ 262144 ∧ vals.length ≤ 4096 ∧
            jr.length ≤ 262144 ∧ jv.length ≤ 1073741824 then
          some { config := ⟨gt⟩, slot := slot, latestBlockHeader := hdr,
                 latestJustified := lj, latestFinalized := lf,
                 historicalBlockHashes := hist, justifiedSlots := js,
                 validators := vals, justificationRoots := jr,
                 justificationValidators := jv }
        else none
    else none

/-! ### Codec round-trip lemmas -/

theorem pow256_eq (w : Nat) : (256 : Nat) ^ w = 2 ^ (8 * w) := by
  calc (256 : Nat) ^ w = (2 ^ 8) ^ w := by norm_num
    _ = 2 ^ (8 * w) := by rw [← pow_mul]

theorem encodeCheckpoint_length (c : Checkpoint) :
    (encodeCheckpoint c).length = 40 := by
  simp [encodeCheckpoint, rootBytes, u64le, natToBytesLE_length, natToBytesBE_length]

theorem encodeAttestationData_length (d : AttestationData) :
    (encodeAttestationData d).length = 128 := by
  simp [encodeAttestationData, u64le, natToBytesLE_length, encodeCheckpoint_length]

theorem encodeAttestation_length (a : Attestation) :
    (encodeAttestation a).length = 136 := by
  simp [encodeAttestation, u64le, natToBytesLE_length, encodeAttestationData_length]

theorem encodeValidator_length (v : Validator) :
    (encodeValidator v).length = 60 := by
  simp [encodeValidator, u64le, natToBytesLE_length, natToBytesBE_length]

theorem encodeBlockHeader_length (hd : BlockHeader) :
    (encodeBlockHeader hd).length = 112 := by
  simp [encodeBlockHeader, u64le, rootBytes, natToBytesLE_length, natToBytesBE_length]

theorem encodeRootList_length (l : List Root) :
    (encodeRootList l).length = 32 * l.length := by
  induction l with
  | nil => rfl
  | cons r t ih =>
    show (rootBytes r ++ encodeRootList t).length = _
    simp only [List.length_append, ih, rootBytes, natToBytesBE_length, List.length_cons]
    ring

theorem encodeValidatorList_length (l : List Validator) :
    (encodeValidatorList l).length = 60 * l.length := by
  induction l with
  | nil => rfl
  | cons v t ih =>
    show (encodeValidator v ++ encodeValidatorList t).length = _
    simp only [List.length_append, ih, encodeValidator_length, List.length_cons]
    ring

theorem encodeAttList_length (l : List Attestation) :
    (encodeAttList l).length = 136 * l.length := by
  induction l with
  | nil => rfl
  | cons a t ih =>
    show (encodeAttestation a ++ encodeAttList t).length = _
    simp only [List.length_append, ih, encodeAttestation_length, List.length_cons]
    ring

theorem readBytes_append (l r : List Nat) (n : Nat) (h : l.length = n) :
    readBytes n (l ++ r) = some (l, r) := by
  unfold readBytes
  rw [if_pos (by simp [List.length_append]; omega), List.take_left' h,
    List.drop_left' h]

theorem readU64_append (v : Nat) (r : List Nat) (h : wtU64 v) :
    readU64 (u64le v ++ r) = some (v, r) := by
  unfold readU64 u64le
  rw [readBytes_append _ _ _ (natToBytesLE_length 8 v)]
  dsimp only
  rw [bytesToNatLE_natToBytesLE 8 v (by rw [pow256_eq]; exact h)]

theorem readU32_append (v : Nat) (r : List Nat) (h : v < 2 ^ 32) :
    readU32 (u32le v ++ r) = some (v, r) := by
  unfold readU32 u32le
  rw [readBytes_append _ _ _ (natToBytesLE_length 4 v)]
  dsimp only
  rw [bytesToNatLE_natToBytesLE 4 v (by rw [pow256_eq]; exact h)]

theorem readArr_append (w v : Nat) (r : List Nat) (h : v < 2 ^ (8 * w)) :
    readArr w (natToBytesBE w v ++ r) = some (v, r) := by
  unfold readArr
  rw [readBytes_append _ _ _ (natToBytesBE_length w v)]
  dsimp only
  rw [bytesToNatBE_natToBytesBE w v (by rw [pow256_eq]; exact h)]

theorem readCheckpoint_append (c : Checkpoint) (r : List Nat)
    (h : wtCheckpoint c) :
    readCheckpoint (encodeCheckpoint c ++ r) = some (c, r) := by
  unfold readCheckpoint encodeCheckpoint rootBytes
  rw [List.append_assoc, readArr_append 32 c.root _ h.1]
  dsimp only
  rw [readU64_append c.slot r h.2]

theorem readAttestationData_append (d : AttestationData) (r : List Nat)
    (h : wtAttestationData d) :
    readAttestationData (encodeAttestationData d ++ r) = some (d, r) := by
  unfold readAttestationData encodeAttestationData
  simp only [List.append_assoc]
  rw [readU64_append _ _ h.1]
  dsimp only
  rw [readCheckpoint_append d.head _ h.2.1]
  dsimp only
  rw [readCheckpoint_append d.target _ h.2.2.1]
  dsimp only
  rw [readCheckpoint_append d.source r h.2.2.2]

theorem readAttestation_append (a : Attestation) (r : List Nat)
    (h : wtAttestation a) :
    readAttestation (encodeAttestation a ++ r) = some (a, r) := by
  unfold readAttestation encodeAttestation
  rw [List.append_assoc, readU64_append _ _ h.1]
  dsimp only
  rw [readAttestationData_append ⟨a.slot, a.head, a.target, a.source⟩ r
    ⟨h.2.1, h.2.2.1, h.2.2.2.1, h.2.2.2.2⟩]

theorem readSignedAttestation_append (sa : SignedAttestation) (r : List Nat)
    (h : wtSignedAttestation sa) :
    readSignedAttestation (encodeSignedAttestation sa ++ r) = some (sa, r) := by
  unfold readSignedAttestation encodeSignedAttestation
  rw [List.append_assoc, readAttestation_append sa.message _ h.1]
  dsimp only
  rw [readArr_append 3112 sa.signature r h.2]

theorem readValidator_append (v : Validator) (r : List Nat) (h : wtValidator v) :
    readValidator (encodeValidator v ++ r) = some (v, r) := by
  unfold readValidator encodeValidator
  rw [List.append_assoc, readArr_append 52 v.pubkey _ h.1]
  dsimp only
  rw [readU64_append v.index r h.2]

theorem readBlockHeader_append (hd : BlockHeader) (r : List Nat)
    (h : wtBlockHeader hd) :
    readBlockHeader (encodeBlockHeader hd ++ r) = some (hd, r) := by
  unfold readBlockHeader encodeBlockHeader rootBytes
  simp only [List.append_assoc]
  rw [readU64_append _ _ h.1]
  dsimp only
  rw [readU64_append _ _ h.2.1]
  dsimp only
  rw [readArr_append 32 hd.parentRoot _ h.2.2.1]
  dsimp only
  rw [readArr_append 32 hd.stateRoot _ h.2.2.2.1]
  dsimp only
  rw [readArr_append 32 hd.bodyRoot r h.2.2.2.2]

theorem decodeCheckpoint_encodeCheckpoint (c : Checkpoint) (h : wtCheckpoint c) :
    decodeCheckpoint (encodeCheckpoint c) = some c := by
  have hr := readCheckpoint_append c [] h
  rw [List.append_nil] at hr
  unfold decodeCheckpoint
  rw [hr]

theorem decodeConfig_encodeConfig (c : Config) (h : wtConfig c) :
    decodeConfig (encodeConfig c) = some c := by
  have hr := readU64_append c.genesisTime [] h
  rw [List.append_nil] at hr
  unfold decodeConfig encodeConfig
  rw [hr]

theorem decodeAttestationData_encode (d : AttestationData)
    (h : wtAttestationData d) :
    decodeAttestationData (encodeAttestationData d) = some d := by
  have hr := readAttestationData_append d [] h
  rw [List.append_nil] at hr
  unfold decodeAttestationData
  rw [hr]

theorem decodeAttestation_encodeAttestation (a : Attestation)
    (h : wtAttestation a) :
    decodeAttestation (encodeAttestation a) = some a := by
  have hr := readAttestation_append a [] h
  rw [List.append_nil] at hr
  unfold decodeAttestation
  rw [hr]

theorem decodeSignedAttestation_encode (sa : SignedAttestation)
    (h : wtSignedAttestation sa) :
    decodeSignedAttestation (encodeSignedAttestation sa) = some sa := by
  have hr := readSignedAttestation_append sa [] h
  rw [List.append_nil] at hr
  unfold decodeSignedAttestation
  rw [hr]

theorem decodeValidator_encodeValidator (v : Validator) (h : wtValidator v) :
    decodeValidator (encodeValidator v) = some v := by
  have hr := readValidator_append v [] h
  rw [List.append_nil] at hr
  unfold decodeValidator
  rw [hr]

theorem decodeBlockHeader_encodeBlockHeader (hd : BlockHeader)
    (h : wtBlockHeader hd) :
    decodeBlockHeader (encodeBlockHeader hd) = some hd := by
  have hr := readBlockHeader_append hd [] h
  rw [List.append_nil] at hr
  unfold decodeBlockHeader
  rw [hr]

theorem decodeAttListGo_spec (l : List Attestation) :
    ∀ fuel, (∀ a ∈ l, wtAttestation a) → l.length ≤ fuel →
      decodeAttListGo fuel (encodeAttList l) = some l := by
  induction l with
  | nil =>
    intro fuel _ _
    cases fuel <;> simp [decodeAttListGo, encodeAttList]
  | cons a t ih =>
    intro fuel hwt hlen
    cases fuel with
    | zero => simp at hlen
    | succ f =>
      show decodeAttListGo (f + 1) (encodeAttestation a ++ encodeAttList t) = _
      unfold decodeAttListGo
      rw [if_neg (by
        intro hc
        rcases List.append_eq_nil.mp hc with ⟨h1, _⟩
        have hl := encodeAttestation_length a
        rw [h1] at hl
        simp at hl)]
      rw [readAttestation_append a _ (hwt a (by simp))]
      dsimp only
      rw [ih f (fun x hx => hwt x (by simp [hx])) (by simp at hlen; omega)]

theorem decodeAttList_encodeAttList (l : List Attestation)
    (hwt : ∀ a ∈ l, wtAttestation a) :
    decodeAttList (encodeAttList l) = some l := by
  unfold decodeAttList
  exact decodeAttListGo_spec l _ hwt (by rw [encodeAttList_length]; omega)

theorem decodeRootListGo_spec (l : List Root) :
    ∀ fuel, (∀ r ∈ l, wtRoot r) → l.length ≤ fuel →
      decodeRootListGo fuel (encodeRootList l) = some l := by
  induction l with
  | nil =>
    intro fuel _ _
    cases fuel <;> simp [decodeRootListGo, encodeRootList]
  | cons r t ih =>
    intro fuel hwt hlen
    cases fuel with
    | zero => simp at hlen
    | succ f =>
      show decodeRootListGo (f + 1) (rootBytes r ++ encodeRootList t) = _
      unfold decodeRootListGo
      rw [if_neg (by
        intro hc
        rcases List.append_eq_nil.mp hc with ⟨h1, _⟩
        have hl := natToBytesBE_length 32 r
        rw [show rootBytes r = natToBytesBE 32 r from rfl] at h1
        rw [h1] at hl
        simp at hl)]
      rw [show rootBytes r = natToBytesBE 32 r from rfl,
        readArr_append 32 r _ (hwt r (by simp))]
      dsimp only
      rw [ih f (fun x hx => hwt x (by simp [hx])) (by simp at hlen; omega)]

theorem decodeRootList_encodeRootList (l : List Root)
    (hwt : ∀ r ∈ l, wtRoot r) :
    decodeRootList (encodeRootList l) = some l := by
  unfold decodeRootList
  exact decodeRootListGo_spec l _ hwt (by rw [encodeRootList_length]; omega)

theorem decodeValidatorListGo_spec (l : List Validator) :
    ∀ fuel, (∀ v ∈ l, wtValidator v) → l.length ≤ fuel →
      decodeValidatorListGo fuel (encodeValidatorList l) = some l := by
  induction l with
  | nil =>
    intro fuel _ _
    cases fuel <;> simp [decodeValidatorListGo, encodeValidatorList]
  | cons v t ih =>
    intro fuel hwt hlen
    cases fuel with
    | zero => simp at hlen
    | succ f =>
      show decodeValidatorListGo (f + 1)
        (encodeValidator v ++ encodeValidatorList t) = _
      unfold decodeValidatorListGo
      rw [if_neg (by
        intro hc
        rcases List.append_eq_nil.mp hc with ⟨h1, _⟩
        have hl := encodeValidator_length v
        rw [h1] at hl
        simp at hl)]
      rw [readValidator_append v _ (hwt v (by simp))]
      dsimp only
      rw [ih f (fun x hx => hwt x (by simp [hx])) (by simp at hlen; omega)]

theorem decodeValidatorList_encode (l : List Validator)
    (hwt : ∀ v ∈ l, wtValidator v) :
    decodeValidatorList (encodeValidatorList l) = some l := by
  unfold decodeValidatorList
  exact decodeValidatorListGo_spec l _ hwt (by rw [encodeValidatorList_length]; omega)

theorem decodeBlockBody_encodeBlockBody (l : List Attestation) (h : wtBody l) :
    decodeBlockBody (encodeBlockBody l) = some l := by
  obtain ⟨hlen, hwt⟩ := h
  unfold decodeBlockBody encodeBlockBody
  rw [readU32_append 4 _ (by norm_num)]
  dsimp only
  rw [if_pos rfl, decodeAttList_encodeAttList l hwt]
  dsimp only
  rw [if_pos hlen]

theorem decodeBlock_encodeBlock (b : Block) (h : wtBlock b) :
    decodeBlock (encodeBlock b) = some b := by
  obtain ⟨h1, h2, h3, h4, h5⟩ := h
  unfold decodeBlock encodeBlock rootBytes
  simp only [List.append_assoc]
  rw [readU64_append _ _ h1]
  dsimp only
  rw [readU64_append _ _ h2]
  dsimp only
  rw [readArr_append 32 b.parentRoot _ h3]
  dsimp only
  rw [readArr_append 32 b.stateRoot _ h4]
  dsimp only
  rw [readU32_append 84 _ (by norm_num)]
  dsimp only
  rw [if_pos rfl, decodeBlockBody_encodeBlockBody b.attestations h5]

theorem decodeState_encodeState (s : SSZState) (h : wtSSZState s) :
    decodeState (encodeState s) = some s := by
  obtain ⟨hcfg, hslot, hhdr, hlj, hlf, hl1, hr1, hl2, hl3, hv3, hl4, hr4, hl5⟩ := h
  have Hh := encodeRootList_length s.historicalBlockHashes
  have Hj := encodeBitlist_length s.justifiedSlots
  have Hv := encodeValidatorList_length s.validators
  have Hr := encodeRootList_length s.justificationRoots
  have Hq := encodeBitlist_length s.justificationValidators
  unfold decodeState encodeState encodeConfig
  dsimp only
  simp only [List.append_assoc]
  rw [readU64_append _ _ hcfg]
  dsimp only
  rw [readU64_append _ _ hslot]
  dsimp only
  rw [readBlockHeader_append _ _ hhdr]
  dsimp only
  rw [readCheckpoint_append _ _ hlj]
  dsimp only
  rw [readCheckpoint_append _ _ hlf]
  dsimp only
  rw [readU32_append 228 _ (by norm_num)]
  dsimp only
  rw [readU32_append _ _ (by omega)]
  dsimp only
  rw [readU32_append _ _ (by omega)]
  dsimp only
  rw [readU32_append _ _ (by omega)]
  dsimp only
  rw [readU32_append _ _ (by omega)]
  dsimp only
  rw [if_pos (by
    refine ⟨rfl, by omega, by omega, by omega, by omega, ?_⟩
    simp only [List.length_append, encodeBlockHeader_length,
      encodeCheckpoint_length, u64le, u32le, natToBytesLE_length]
    omega)]
  simp only [Nat.add_sub_cancel_left, List.take_left, List.drop_left]
  rw [decodeRootList_encodeRootList _ hr1]
  dsimp only
  rw [decodeBitlist_encodeBitlist]
  dsimp only
  rw [decodeValidatorList_encode _ hv3]
  dsimp only
  rw [decodeRootList_encodeRootList _ hr4]
  dsimp only
  rw [decodeBitlist_encodeBitlist]
  dsimp only
  rw [if_pos ⟨hl1, hl2, hl3, hl4, hl5⟩]

/-- C9: for every well-typed value of each declared container type
(`Checkpoint`, `Config`, `AttestationData`, `Attestation`,
`SignedAttestation`, `Validator`, `BlockHeader`, `BlockBody`, `Block`,
`State`), decoding the canonical encoding yields the value back.  The
encoder / decoder pair is modelled from the spec's codec section (the
generated encoding sources are not in this tree); container shapes
follow `types/containers.go`. -/
theorem C9_codec_round_trip :
    (∀ c : Checkpoint, wtCheckpoint c →
      decodeCheckpoint (encodeCheckpoint c) = some c)
    ∧ (∀ c : Config, wtConfig c → decodeConfig (encodeConfig c) = some c)
    ∧ (∀ d : AttestationData, wtAttestationData d →
      decodeAttestationData (encodeAttestationData d) = some d)
    ∧ (∀ a : Attestation, wtAttestation a →
      decodeAttestation (encodeAttestation a) = some a)
    ∧ (∀ sa : SignedAttestation, wtSignedAttestation sa →
      decodeSignedAttestation (encodeSignedAttestation sa) = some sa)
    ∧ (∀ v : Validator, wtValidator v →
      decodeValidator (encodeValidator v) = some v)
    ∧ (∀ hd : BlockHeader, wtBlockHeader hd →
      decodeBlockHeader (encodeBlockHeader hd) = some hd)
    ∧ (∀ body : List Attestation, wtBody body →
      decodeBlockBody (encodeBlockBody body) = some body)
    ∧ (∀ b : Block, wtBlock b → decodeBlock (encodeBlock b) = some b)
    ∧ (∀ s : SSZState, wtSSZState s → decodeState (encodeState s) = some s) :=
  ⟨decodeCheckpoint_encodeCheckpoint, decodeConfig_encodeConfig,
   decodeAttestationData_encode, decodeAttestation_encodeAttestation,
   decodeSignedAttestation_encode, decodeValidator_encodeValidator,
   decodeBlockHeader_encodeBlockHeader, decodeBlockBody_encodeBlockBody,
   decodeBlock_encodeBlock, decodeState_encodeState⟩

def c9Att : Attestation :=
  { validatorID := 1, slot := 3, head := ⟨77, 12⟩, target := ⟨77, 12⟩,
    source := ⟨50, 0⟩ }

def c9Header : BlockHeader :=
  { slot := 1, proposerIndex := 0, parentRoot := 9, stateRoot := 8, bodyRoot := 7 }

def c9State : SSZState :=
  { config := ⟨1000⟩, slot := 3, latestBlockHeader := c9Header
    latestJustified := ⟨50, 0⟩, latestFinalized := ⟨0, 0⟩
    historicalBlockHashes := [50, 51]
    justifiedSlots := [true, false, true]
    validators := [⟨987654321, 0⟩, ⟨55, 1⟩]
    justificationRoots := [50]
    justificationValidators := [true, true, false] }

/-- Witness for `C9_codec_round_trip`: the round-trips applied at
concrete values of every container type. -/
theorem C9_codec_round_trip_witness :
    decodeCheckpoint (encodeCheckpoint ⟨77, 12⟩) = some ⟨77, 12⟩
    ∧ decodeConfig (encodeConfig ⟨1000⟩) = some ⟨1000⟩
    ∧ decodeAttestationData (encodeAttestationData ⟨3, ⟨77, 12⟩, ⟨77, 12⟩, ⟨50, 0⟩⟩) =
        some ⟨3, ⟨77, 12⟩, ⟨77, 12⟩, ⟨50, 0⟩⟩
    ∧ decodeAttestation (encodeAttestation c9Att) = some c9Att
    ∧ decodeSignedAttestation (encodeSignedAttestation ⟨c9Att, 123456⟩) =
        some ⟨c9Att, 123456⟩
    ∧ decodeValidator (encodeValidator ⟨987654321, 2⟩) = some ⟨987654321, 2⟩
    ∧ decodeBlockHeader (encodeBlockHeader c9Header) = some c9Header
    ∧ decodeBlockBody (encodeBlockBody [c9Att]) = some [c9Att]
    ∧ decodeBlock (encodeBlock ⟨1, 1, 50, 13, [c9Att]⟩) =
        some ⟨1, 1, 50, 13, [c9Att]⟩
    ∧ decodeState (encodeState c9State) = some c9State :=
  ⟨C9_codec_round_trip.1 ⟨77, 12⟩ (by decide),
   C9_codec_round_trip.2.1 ⟨1000⟩ (by decide),
   C9_codec_round_trip.2.2.1 ⟨3, ⟨77, 12⟩, ⟨77, 12⟩, ⟨50, 0⟩⟩ (by decide),
   C9_codec_round_trip.2.2.2.1 c9Att (by decide),
   C9_codec_round_trip.2.2.2.2.1 ⟨c9Att, 123456⟩
     ⟨by decide, Nat.lt_of_lt_of_le (show (123456 : Nat) < 2 ^ 17 by norm_num)
       (Nat.pow_le_pow_right (by norm_num) (by norm_num))⟩,
   C9_codec_round_trip.2.2.2.2.2.1 ⟨987654321, 2⟩ (by decide),
   C9_codec_round_trip.2.2.2.2.2.2.1 c9Header (by decide),
   C9_codec_round_trip.2.2.2.2.2.2.2.1 [c9Att] (by decide),
   C9_codec_round_trip.2.2.2.2.2.2.2.2.1 ⟨1, 1, 50, 13, [c9Att]⟩ (by decide),
   C9_codec_round_trip.2.2.2.2.2.2.2.2.2 c9State (by decide)⟩

/-! ## Invariant preservation over whole steps, and the C6 / C7 results -/

theorem processBlock_inv (H : HashModel) (s : State) (b : Block) (s' : State)
    (h : processBlock H s b = Except.ok s') (hI : Inv s) :
    Inv s' ∧ s.latestFinalized.slot ≤ s'.latestFinalized.slot := by
  unfold processBlock at h
  cases hh : processBlockHeader H s b with
  | error e =>
    rw [hh] at h
    exact Except.noConfusion h
  | ok s1 =>
    rw [hh] at h
    cases h
    obtain ⟨hI1, hfin, -⟩ := processBlockHeader_ok_inv H s b s1 hh hI
    have h2 := processAttestations_inv s1 b.attestations hI1
    exact ⟨h2.1, by omega⟩

theorem genesis_inv (H : HashModel) (gt n : Nat) : Inv (genesisState H gt n) :=
  ⟨rfl, Nat.le_refl _, Nat.le_refl _, Nat.le_refl _, Nat.le_refl _, Or.inl rfl⟩

theorem step_inv (H : HashModel) (s s' : State) (hI : Inv s) (hs : Step H s s') :
    Inv s' ∧ s.latestFinalized.slot ≤ s'.latestFinalized.slot := by
  cases hs
  case slots t h =>
    obtain ⟨hI', hfin, -⟩ := processSlots_inv H s t s' h hI
    exact ⟨hI', hfin⟩
  case block b h => exact processBlock_inv H s b s' h hI
  case atts l => exact processAttestations_inv s l hI

theorem reachable_inv (H : HashModel) (s : State) (h : Reachable H s) : Inv s := by
  induction h with
  | genesis gt n => exact genesis_inv H gt n
  | step hr hstep ih => exact (step_inv H _ _ ih hstep).1

/-- C6 (amended): over every state produced from genesis by transition
steps, `latest_finalized.slot` never decreases across a step and
`latest_finalized.slot ≤ latest_justified.slot ≤ slot` always holds.
The original claim's `latest_justified.slot` monotonicity fails; see the
counterexample. -/
theorem C6_checkpoint_monotonicity_amended :
    (∀ H s, Reachable H s →
      s.latestFinalized.slot ≤ s.latestJustified.slot ∧ s.latestJustified.slot ≤ s.slot)
    ∧ (∀ H s s', Reachable H s → Step H s s' →
        s.latestFinalized.slot ≤ s'.latestFinalized.slot) := by
  constructor
  · intro H s h
    have hI := reachable_inv H s h
    exact ⟨hI.finLeJust, Nat.le_trans hI.justLeHeader hI.headerLe⟩
  · intro H s s' h hstep
    exact (step_inv H s s' (reachable_inv H s h) hstep).2

/-- Witness for `C6_checkpoint_monotonicity_amended` at the genesis state
and an empty attestation-processing step. -/
theorem C6_checkpoint_monotonicity_amended_witness :
    ((genesisState ⟨fun _ => 0, fun _ => 0, fun _ => 0, fun _ => 0⟩ 0 1).latestFinalized.slot ≤
       (genesisState ⟨fun _ => 0, fun _ => 0, fun _ => 0, fun _ => 0⟩ 0 1).latestJustified.slot ∧
     (genesisState ⟨fun _ => 0, fun _ => 0, fun _ => 0, fun _ => 0⟩ 0 1).latestJustified.slot ≤
       (genesisState ⟨fun _ => 0, fun _ => 0, fun _ => 0, fun _ => 0⟩ 0 1).slot) ∧
    (genesisState ⟨fun _ => 0, fun _ => 0, fun _ => 0, fun _ => 0⟩ 0 1).latestFinalized.slot ≤
      (processAttestations (genesisState ⟨fun _ => 0, fun _ => 0, fun _ => 0, fun _ => 0⟩ 0 1)
        []).latestFinalized.slot :=
  ⟨C6_checkpoint_monotonicity_amended.1 _ _ (Reachable.genesis 0 1),
   C6_checkpoint_monotonicity_amended.2 _ _ _ (Reachable.genesis 0 1)
     (Step.atts (genesisState ⟨fun _ => 0, fun _ => 0, fun _ => 0, fun _ => 0⟩ 0 1) [])⟩

/-- The all-zero hash model used for concrete reachability traces; the
trace only needs the parent-root equalities, which hold by construction
for any fixed hash function. -/
def H0 : HashModel := ⟨fun _ => 0, fun _ => 0, fun _ => 0, fun _ => 0⟩

/-- An empty block at slot `k` of the single-validator counterexample
chain (proposer `k % 1 = 0`, parent root as hashed by `H0`). -/
def cexBlock (k : Nat) : Block :=
  { slot := k, proposerIndex := 0, parentRoot := 0, stateRoot := 0, attestations := [] }

/-- Advance a state by `process_slots` to the block's slot and then
`process_block` (identity on failure, so the builder is total). -/
def nextState (H : HashModel) (s : State) (b : Block) : State :=
  match processSlots H s b.slot with
  | .error _ => s
  | .ok s1 =>
    match processBlock H s1 b with
    | .error _ => s1
    | .ok s2 => s2

theorem reachable_nextState (H : HashModel) (s : State) (b : Block)
    (h : Reachable H s) : Reachable H (nextState H s b) := by
  unfold nextState
  cases h1 : processSlots H s b.slot with
  | error e => exact h
  | ok s1 =>
    dsimp only
    have hs1 : Reachable H s1 := h.step (Step.slots s b.slot s1 h1)
    cases h2 : processBlock H s1 b with
    | error e => exact hs1
    | ok s2 => exact hs1.step (Step.block s1 b s2 h2)

/-- Ten empty blocks on top of a single-validator genesis: a reachable
state with history entries at slots 0..9. -/
def cexChain : State :=
  (List.range' 1 10).foldl (fun s k => nextState H0 s (cexBlock k)) (genesisState H0 0 1)

theorem reachable_cexChain : Reachable H0 cexChain := by
  have hfold : ∀ (l : List Nat) (s : State), Reachable H0 s →
      Reachable H0 (l.foldl (fun s k => nextState H0 s (cexBlock k)) s) := by
    intro l
    induction l with
    | nil => exact fun s h => h
    | cons k rest ih => exact fun s h => ih _ (reachable_nextState H0 s (cexBlock k) h)
  exact hfold _ _ (Reachable.genesis 0 1)

/-- A 1-of-1 supermajority vote with the given source and target slots
(all roots are `H0`-hashes, i.e. zero). -/
def cexAtt (src tgt : Nat) : Attestation := ⟨0, tgt, ⟨0, tgt⟩, ⟨0, tgt⟩, ⟨0, src⟩⟩

/-- After justifying slots 4, 5 (finalizing 4) and 9 on the chain. -/
def cexJ9 : State := processAttestations cexChain [cexAtt 0 4, cexAtt 4 5, cexAtt 5 9]

/-- C6 counterexample: from a reachable state whose latest justified slot
is 9, one further `process_attestations` step (a valid 1-of-1 vote with
source slot 5 and target slot 8, justifiable after the finalized slot 4)
drops `latest_justified.slot` to 8 — the code justifies the new target
unconditionally, without the monotonicity guard the claim asserts. -/
theorem C6_justified_slot_can_decrease :
    Reachable H0 cexJ9 ∧
    Step H0 cexJ9 (processAttestations cexJ9 [cexAtt 5 8]) ∧
    cexJ9.latestJustified.slot = 9 ∧
    (processAttestations cexJ9 [cexAtt 5 8]).latestJustified.slot = 8 :=
  ⟨Reachable.step reachable_cexChain (Step.atts cexChain _),
   Step.atts cexJ9 _, by decide, by decide⟩

theorem attStep_proj (acc : State × Justifications) (a : Attestation) :
    (attStep acc a).1.slot = acc.1.slot ∧
    (attStep acc a).1.latestBlockHeader = acc.1.latestBlockHeader ∧
    (attStep acc a).1.historicalBlockHashes = acc.1.historicalBlockHashes := by
  obtain ⟨st, j⟩ := acc
  simp only [attStep]
  repeat' split
  all_goals exact ⟨rfl, rfl, rfl⟩

theorem foldl_attStep_proj (l : List Attestation) :
    ∀ acc : State × Justifications,
      (l.foldl attStep acc).1.slot = acc.1.slot ∧
      (l.foldl attStep acc).1.latestBlockHeader = acc.1.latestBlockHeader ∧
      (l.foldl attStep acc).1.historicalBlockHashes = acc.1.historicalBlockHashes := by
  induction l with
  | nil => exact fun acc => ⟨rfl, rfl, rfl⟩
  | cons a rest ih =>
    intro acc
    obtain ⟨q1, q2, q3⟩ := ih (attStep acc a)
    obtain ⟨p1, p2, p3⟩ := attStep_proj acc a
    exact ⟨q1.trans p1, q2.trans p2, q3.trans p3⟩

theorem processAttestations_proj (s : State) (l : List Attestation) :
    (processAttestations s l).slot = s.slot ∧
    (processAttestations s l).latestBlockHeader = s.latestBlockHeader ∧
    (processAttestations s l).historicalBlockHashes = s.historicalBlockHashes := by
  unfold processAttestations
  obtain ⟨r1, r2, r3, r4, r5, r6, r7⟩ :=
    setJustifications_proj (l.foldl attStep (s, getJustifications s)).1
      (l.foldl attStep (s, getJustifications s)).2
  obtain ⟨q1, q2, q3⟩ := foldl_attStep_proj l (s, getJustifications s)
  exact ⟨r2.trans q1, r3.trans q2, r6.trans q3⟩

/-- C7 (amended): in every reachable state
`len(historical_block_hashes) = latest_block_header.slot ≤ slot`; a pure
`process_slots` advance does not extend history, so the length equals the
state's slot again only after the next `process_block`, which appends the
parent header's hash-tree-root at the parent's slot index followed by a
zero root for each skipped slot. -/
theorem C7_history_alignment_amended :
    (∀ H s, Reachable H s →
      s.historicalBlockHashes.length = s.latestBlockHeader.slot ∧
      s.latestBlockHeader.slot ≤ s.slot)
    ∧ (∀ H s b s', Reachable H s → processBlock H s b = Except.ok s' →
        s'.historicalBlockHashes.length = s'.slot ∧
        s'.historicalBlockHashes =
          (s.historicalBlockHashes ++ [H.htrHeader s.latestBlockHeader]) ++
            List.replicate (b.slot - s.latestBlockHeader.slot - 1) 0) := by
  constructor
  · intro H s h
    have hI := reachable_inv H s h
    exact ⟨hI.histLen, hI.headerLe⟩
  · intro H s b s' h hok
    have hI := reachable_inv H s h
    unfold processBlock at hok
    cases hh : processBlockHeader H s b with
    | error e =>
      rw [hh] at hok
      exact Except.noConfusion hok
    | ok s1 =>
      rw [hh] at hok
      cases hok
      obtain ⟨hI1, -, -, hbs, hlt, hpar, hslot, hhdr, hhist⟩ :=
        processBlockHeader_ok_inv H s b s1 hh hI
      obtain ⟨m1, m2, m3, m4, m5, m6, m7⟩ := markGenesisJustified_proj s b.parentRoot
      obtain ⟨a1, a2, a3⟩ := processAttestations_proj s1 b.attestations
      constructor
      · rw [a3, a1, hI1.histLen, hslot]
        have := hI1.headerLe
        omega
      · rw [a3, hhist, m6, hpar]

/-- Witness for `C7_history_alignment_amended`: the genesis state and the
first block of the counterexample chain. -/
theorem C7_history_alignment_amended_witness :
    ((genesisState H0 0 1).historicalBlockHashes.length =
        (genesisState H0 0 1).latestBlockHeader.slot ∧
      (genesisState H0 0 1).latestBlockHeader.slot ≤ (genesisState H0 0 1).slot) ∧
    (nextState H0 (genesisState H0 0 1) (cexBlock 1)).historicalBlockHashes.length =
      (nextState H0 (genesisState H0 0 1) (cexBlock 1)).slot :=
  ⟨C7_history_alignment_amended.1 H0 _ (Reachable.genesis 0 1),
   (C7_history_alignment_amended.2 H0
      (processSlotsGo H0 1 (genesisState H0 0 1)) (cexBlock 1)
      (nextState H0 (genesisState H0 0 1) (cexBlock 1))
      (Reachable.step (Reachable.genesis 0 1)
        (Step.slots (genesisState H0 0 1) 1 (processSlotsGo H0 1 (genesisState H0 0 1))
          (by rfl)))
      (by rfl)).1⟩

/-- C7 counterexample: immediately after a successful `process_slots` from
genesis to slot 1, the state's slot is 1 but `historical_block_hashes` is
still empty — the length equals `latest_block_header.slot`, not `slot`. -/
theorem C7_history_shorter_than_slot_after_process_slots :
    processSlots H0 (genesisState H0 0 1) 1 =
      Except.ok (processSlotsGo H0 1 (genesisState H0 0 1)) ∧
    (processSlotsGo H0 1 (genesisState H0 0 1)).slot = 1 ∧
    (processSlotsGo H0 1 (genesisState H0 0 1)).historicalBlockHashes.length = 0 :=
  ⟨by rfl, by decide, by decide⟩

end Gean
